import Mathlib

/-!
Verification of the bit-scan, hashing, ioctl-encoding, bitmap and intrusive
linked-list utilities of the Sigmastar camera OS-abstraction headers
(src/third-party/my283/usr/include/cam_os_util*.h).

Machine integers are embedded as Nat together with an explicit reduction
modulo 2^w at every operation where the C code can overflow its w-bit
operand.  An s32/u32 value is represented by its 32-bit pattern
(a Nat below 2^32); an unsigned long is represented by its pattern below
2^W where W is CAM_OS_BITS_PER_LONG (32 or 64, both configurations exist
in cam_os_wrapper.h).
-/

/-! ### Generic facts about Nat.log2 and bit masks -/

/-- Uniqueness characterisation of the base-2 logarithm. -/
theorem log2_unique (n k : Nat) (h1 : 2 ^ k ≤ n) (h2 : n < 2 ^ (k + 1)) :
    Nat.log2 n = k := by
  have hn : n ≠ 0 := by
    have := Nat.two_pow_pos k
    omega
  have hub : Nat.log2 n < k + 1 := (Nat.log2_lt hn).2 h2
  have hlb : k ≤ Nat.log2 n := (Nat.le_log2 hn).2 h1
  omega

/-- The top bit of a nonzero number is set. -/
theorem testBit_log2_self (x : Nat) (hx : x ≠ 0) :
    x.testBit (Nat.log2 x) = true := by
  have h1 : 2 ^ Nat.log2 x ≤ x := Nat.log2_self_le hx
  have h2 : x < 2 ^ (Nat.log2 x + 1) := Nat.lt_log2_self
  rw [Nat.testBit_to_div_mod]
  have hpow : (0:Nat) < 2 ^ Nat.log2 x := Nat.two_pow_pos _
  have hdiv : x / 2 ^ Nat.log2 x = 1 := by
    have hlt : x / 2 ^ Nat.log2 x < 2 := by
      rw [Nat.div_lt_iff_lt_mul hpow]
      calc x < 2 ^ (Nat.log2 x + 1) := h2
        _ = 2 * 2 ^ Nat.log2 x := by ring
    have hge : 1 ≤ x / 2 ^ Nat.log2 x := (Nat.one_le_div_iff hpow).2 h1
    omega
  simp [hdiv]

/-- Conjunction with a single power of two is zero exactly when that bit is
clear. -/
theorem and_two_pow_eq_zero_iff (n i : Nat) :
    n &&& 2 ^ i = 0 ↔ n.testBit i = false := by
  constructor
  · intro h
    by_contra hb
    have hb' : n.testBit i = true := by
      cases hx : n.testBit i with
      | false => exact absurd hx hb
      | true => rfl
    have : (n &&& 2 ^ i).testBit i = true := by
      simp [Nat.testBit_and, hb', Nat.testBit_two_pow_self]
    rw [h] at this
    simp at this
  · intro h
    apply Nat.eq_of_testBit_eq
    intro j
    simp only [Nat.testBit_and, Nat.zero_testBit]
    by_cases hij : i = j
    · subst hij; simp [h]
    · simp [Nat.testBit_two_pow_of_ne hij]

/-- Testing a w-bit value against the mask keeping bits t..w-1 yields zero
exactly when the value is below 2^t.  The masks 0xffff0000 etc. used by the
bit-scan cascades all have this shape. -/
theorem and_high_mask_eq_zero_iff (w t x : Nat) (ht : t ≤ w) (hx : x < 2 ^ w) :
    (x &&& (2 ^ w - 2 ^ t) = 0) ↔ x < 2 ^ t := by
  have hmask : (2 ^ w - 2 ^ t) = (2 ^ (w - t) - 1) <<< t := by
    rw [Nat.shiftLeft_eq, Nat.sub_mul, Nat.one_mul, ← Nat.pow_add]
    have hwt : w - t + t = w := by omega
    rw [hwt]
  constructor
  · intro h
    by_contra hlt
    push_neg at hlt
    have hx0 : x ≠ 0 := by
      have : (0:Nat) < 2 ^ t := Nat.two_pow_pos t
      omega
    have hl1 : t ≤ Nat.log2 x := (Nat.le_log2 hx0).2 hlt
    have hl2 : Nat.log2 x < w := (Nat.log2_lt hx0).2 hx
    have hbit : (x &&& (2 ^ w - 2 ^ t)).testBit (Nat.log2 x) = true := by
      rw [hmask]
      simp only [Nat.testBit_and, Nat.testBit_shiftLeft,
        Nat.testBit_two_pow_sub_one]
      have := testBit_log2_self x hx0
      simp [this, hl1]
      omega
    rw [h] at hbit
    simp at hbit
  · intro h
    apply Nat.eq_of_testBit_eq
    intro j
    simp only [Nat.testBit_and, Nat.zero_testBit, hmask, Nat.testBit_shiftLeft,
      Nat.testBit_two_pow_sub_one]
    by_cases hj : t ≤ j
    · have : x.testBit j = false :=
        Nat.testBit_lt_two_pow (Nat.lt_of_lt_of_le h (Nat.pow_le_pow_right (by norm_num) hj))
      simp [this]
    · simp [hj]

/-- Multiplying by a power of two shifts the logarithm. -/
theorem log2_mul_two_pow (x k : Nat) (hx : 0 < x) :
    Nat.log2 (x * 2 ^ k) = Nat.log2 x + k := by
  have hx0 : x ≠ 0 := by omega
  apply log2_unique
  · calc 2 ^ (Nat.log2 x + k) = 2 ^ Nat.log2 x * 2 ^ k := by rw [Nat.pow_add]
      _ ≤ x * 2 ^ k := Nat.mul_le_mul_right _ (Nat.log2_self_le hx0)
  · calc x * 2 ^ k < 2 ^ (Nat.log2 x + 1) * 2 ^ k :=
        (Nat.mul_lt_mul_right (Nat.two_pow_pos k)).2 Nat.lt_log2_self
      _ = 2 ^ (Nat.log2 x + k + 1) := by rw [← Nat.pow_add]; congr 1; omega

/-- Dividing by a power of two lowers the logarithm. -/
theorem log2_div_two_pow (x k : Nat) (hk : 2 ^ k ≤ x) :
    Nat.log2 (x / 2 ^ k) = Nat.log2 x - k := by
  have hx0 : x ≠ 0 := by
    have : (0:Nat) < 2 ^ k := Nat.two_pow_pos k
    omega
  have hlk : k ≤ Nat.log2 x := (Nat.le_log2 hx0).2 hk
  apply log2_unique
  · have h1 : 2 ^ Nat.log2 x ≤ x := Nat.log2_self_le hx0
    have h2 : 2 ^ (Nat.log2 x - k) = 2 ^ Nat.log2 x / 2 ^ k :=
      (Nat.pow_div hlk (by norm_num)).symm
    rw [h2]
    exact Nat.div_le_div_right h1
  · have h2 : x < 2 ^ (Nat.log2 x + 1) := Nat.lt_log2_self
    rw [Nat.div_lt_iff_lt_mul (Nat.two_pow_pos k)]
    calc x < 2 ^ (Nat.log2 x + 1) := h2
      _ = 2 ^ (Nat.log2 x - k + 1) * 2 ^ k := by
        rw [← Nat.pow_add]; congr 1; omega

/-! ### CAM_OS_FLS (cam_os_util.h lines 57-84) and the 64-bit variants

The C routine keeps a pair (x, r); each of the five blocks tests the top
bits of the current 32-bit value of x against a constant mask and, when they
are all clear, shifts x left and decreases r.  flsStep is the shape of one
such block over a w-bit register. -/

/-- One conditional shift block of the find-last-set cascades: if the bits
selected by mask m are all clear, shift the value left by k (within a w-bit
register) and decrease the counter by k. -/
def flsStep (w k m : Nat) (p : Nat × Nat) : Nat × Nat :=
  if p.1 &&& m = 0 then ((p.1 <<< k) % 2 ^ w, p.2 - k) else p

/-- CAM_OS_FLS from cam_os_util.h: the argument is the 32-bit pattern of the
s32 parameter (the C masks 0xffff0000u .. 0x80000000u compare patterns), the
result is the returned s32 (always in 0..32). -/
def CAM_OS_FLS (x : Nat) : Nat :=
  if x = 0 then 0
  else (flsStep 32 1 0x80000000 (flsStep 32 2 0xc0000000 (flsStep 32 4 0xf0000000
        (flsStep 32 8 0xff000000 (flsStep 32 16 0xffff0000 (x, 32)))))).2

/-- Behaviour of one cascade block: the selected top bits, the w-bit range
and the sum of the counter and the logarithm are maintained. -/
theorem flsStep_spec (w t k m : Nat) (p : Nat × Nat) (hm : m = 2 ^ w - 2 ^ t)
    (htk : t + k ≤ w) (hkt : k ≤ t) (hkr : k ≤ p.2)
    (hlo : 2 ^ (t - k) ≤ p.1) (hhi : p.1 < 2 ^ w) :
    2 ^ t ≤ (flsStep w k m p).1 ∧ (flsStep w k m p).1 < 2 ^ w ∧
    (Nat.log2 (flsStep w k m p).1 + (flsStep w k m p).2 = Nat.log2 p.1 + p.2) ∧
    p.2 - k ≤ (flsStep w k m p).2 ∧ (flsStep w k m p).2 ≤ p.2 := by
  have hx0 : 0 < p.1 := by
    have : (0:Nat) < 2 ^ (t - k) := Nat.two_pow_pos _
    omega
  rw [flsStep]
  by_cases hc : p.1 &&& m = 0
  · rw [if_pos hc]
    have hlt : p.1 < 2 ^ t := by
      rw [hm] at hc
      exact (and_high_mask_eq_zero_iff w t p.1 (by omega) hhi).1 hc
    have hsh : p.1 <<< k = p.1 * 2 ^ k := Nat.shiftLeft_eq _ _
    have hmul_lt : p.1 * 2 ^ k < 2 ^ w := by
      calc p.1 * 2 ^ k < 2 ^ t * 2 ^ k := (Nat.mul_lt_mul_right (Nat.two_pow_pos k)).2 hlt
        _ = 2 ^ (t + k) := by rw [← Nat.pow_add]
        _ ≤ 2 ^ w := Nat.pow_le_pow_right (by norm_num) htk
    have hmod : (p.1 <<< k) % 2 ^ w = p.1 * 2 ^ k := by
      rw [hsh, Nat.mod_eq_of_lt hmul_lt]
    refine ⟨?_, ?_, ?_, ?_, ?_⟩
    · simp only [hmod]
      calc 2 ^ t = 2 ^ (t - k) * 2 ^ k := by rw [← Nat.pow_add]; congr 1; omega
        _ ≤ p.1 * 2 ^ k := Nat.mul_le_mul_right _ hlo
    · simp only [hmod]; exact hmul_lt
    · simp only [hmod]
      rw [log2_mul_two_pow p.1 k hx0]
      omega
    · simp
    · simp only
      omega
  · rw [if_neg hc]
    have hge : 2 ^ t ≤ p.1 := by
      by_contra hlt
      push_neg at hlt
      exact hc (by rw [hm]; exact (and_high_mask_eq_zero_iff w t p.1 (by omega) hhi).2 hlt)
    exact ⟨hge, hhi, rfl, by omega, le_refl _⟩

/-- CAM_OS_FLS computes one plus the index of the most significant set bit of
a nonzero 32-bit value. -/
theorem fls_eq_log2_add_one (x : Nat) (h0 : x ≠ 0) (hx : x < 2 ^ 32) :
    CAM_OS_FLS x = Nat.log2 x + 1 := by
  rw [CAM_OS_FLS, if_neg h0]
  have h1 := flsStep_spec 32 16 16 0xffff0000 (x, 32) (by norm_num) (by norm_num)
    (by norm_num) (by norm_num) (by simpa using Nat.pos_of_ne_zero h0) hx
  set p1 := flsStep 32 16 0xffff0000 (x, 32) with hp1
  have h2 := flsStep_spec 32 24 8 0xff000000 p1 (by norm_num) (by norm_num)
    (by norm_num) (by omega) (by simpa using h1.1) h1.2.1
  set p2 := flsStep 32 8 0xff000000 p1 with hp2
  have h3 := flsStep_spec 32 28 4 0xf0000000 p2 (by norm_num) (by norm_num)
    (by norm_num) (by omega) (by simpa using h2.1) h2.2.1
  set p3 := flsStep 32 4 0xf0000000 p2 with hp3
  have h4 := flsStep_spec 32 30 2 0xc0000000 p3 (by norm_num) (by norm_num)
    (by norm_num) (by omega) (by simpa using h3.1) h3.2.1
  set p4 := flsStep 32 2 0xc0000000 p3 with hp4
  have h5 := flsStep_spec 32 31 1 0x80000000 p4 (by norm_num) (by norm_num)
    (by norm_num) (by omega) (by simpa using h4.1) h4.2.1
  set p5 := flsStep 32 1 0x80000000 p4 with hp5
  have hl5 : Nat.log2 p5.1 = 31 := log2_unique p5.1 31 h5.1 (by simpa using h5.2.1)
  have hs1 : Nat.log2 p1.1 + p1.2 = Nat.log2 x + 32 := by simpa using h1.2.2.1
  have hs2 := h2.2.2.1
  have hs3 := h3.2.2.1
  have hs4 := h4.2.2.1
  have hs5 := h5.2.2.1
  omega

/-- Claim C1: for every s32 input, CAM_OS_FLS returns 0 on 0 and otherwise
one plus the floor of log2 of the argument read as an unsigned 32-bit value;
in particular it returns 32 whenever the sign bit (bit 31) is set.  x is the
32-bit pattern of the s32 argument. -/
theorem cam_os_fls_correct (x : Nat) (hx : x < 2 ^ 32) :
    (x = 0 → CAM_OS_FLS x = 0) ∧
    (x ≠ 0 → CAM_OS_FLS x = Nat.log2 x + 1) ∧
    (2 ^ 31 ≤ x → CAM_OS_FLS x = 32) := by
  refine ⟨fun h => by simp [CAM_OS_FLS, h], fun h => fls_eq_log2_add_one x h hx,
    fun h => ?_⟩
  have h0 : x ≠ 0 := by
    have : (0:Nat) < 2 ^ 31 := Nat.two_pow_pos 31
    omega
  rw [fls_eq_log2_add_one x h0 hx, log2_unique x 31 h (by norm_num; omega)]

/-- Witness for claim C1 at the concrete input 0x80001234 (sign bit set). -/
theorem cam_os_fls_correct_witness :
    (0x80001234 : Nat) < 2 ^ 32 ∧ CAM_OS_FLS 0x80001234 = 32 :=
  ⟨by norm_num, (cam_os_fls_correct 0x80001234 (by norm_num)).2.2 (by norm_num)⟩

/-- CAM_OS_FLS64 in the CAM_OS_BITS_PER_LONG == 32 configuration
(cam_os_util.h lines 86-93): h is the u32 value x >> 32; if it is nonzero
the result is CAM_OS_FLS(h) + 32, otherwise CAM_OS_FLS applied to the u64
argument truncated to the s32 parameter. -/
def CAM_OS_FLS64_cfg32 (x : Nat) : Nat :=
  if (x >>> 32) % 2 ^ 32 ≠ 0 then CAM_OS_FLS ((x >>> 32) % 2 ^ 32) + 32
  else CAM_OS_FLS (x % 2 ^ 32)

/-- The _CAM_OS_FLS cascade of the CAM_OS_BITS_PER_LONG == 64 configuration
(cam_os_util.h lines 94-126): num starts at 63; the masks ~0ul << 32,
~0ul << 48, ~0ul << 56, ~0ul << 60, ~0ul << 62 drive shift blocks, and the
final test against ~0ul << 63 only decrements num. -/
def cascade64 (word : Nat) : Nat :=
  let p := flsStep 64 2 0xc000000000000000 (flsStep 64 4 0xf000000000000000
    (flsStep 64 8 0xff00000000000000 (flsStep 64 16 0xffff000000000000
      (flsStep 64 32 0xffffffff00000000 (word, 63)))));
  if p.1 &&& 0x8000000000000000 = 0 then p.2 - 1 else p.2

/-- CAM_OS_FLS64 in the CAM_OS_BITS_PER_LONG == 64 configuration
(cam_os_util.h lines 128-133). -/
def CAM_OS_FLS64_cfg64 (x : Nat) : Nat :=
  if x = 0 then 0 else cascade64 x + 1

/-- The 64-bit cascade returns the index of the most significant set bit. -/
theorem cascade64_eq_log2 (x : Nat) (h0 : x ≠ 0) (hx : x < 2 ^ 64) :
    cascade64 x = Nat.log2 x := by
  rw [cascade64]
  have h1 := flsStep_spec 64 32 32 0xffffffff00000000 (x, 63) (by norm_num)
    (by norm_num) (by norm_num) (by norm_num)
    (by simpa using Nat.pos_of_ne_zero h0) hx
  set p1 := flsStep 64 32 0xffffffff00000000 (x, 63) with hp1
  have h2 := flsStep_spec 64 48 16 0xffff000000000000 p1 (by norm_num)
    (by norm_num) (by norm_num) (by omega) (by simpa using h1.1) h1.2.1
  set p2 := flsStep 64 16 0xffff000000000000 p1 with hp2
  have h3 := flsStep_spec 64 56 8 0xff00000000000000 p2 (by norm_num)
    (by norm_num) (by norm_num) (by omega) (by simpa using h2.1) h2.2.1
  set p3 := flsStep 64 8 0xff00000000000000 p2 with hp3
  have h4 := flsStep_spec 64 60 4 0xf000000000000000 p3 (by norm_num)
    (by norm_num) (by norm_num) (by omega) (by simpa using h3.1) h3.2.1
  set p4 := flsStep 64 4 0xf000000000000000 p3 with hp4
  have h5 := flsStep_spec 64 62 2 0xc000000000000000 p4 (by norm_num)
    (by norm_num) (by norm_num) (by omega) (by simpa using h4.1) h4.2.1
  set p5 := flsStep 64 2 0xc000000000000000 p4 with hp5
  have hs1 : Nat.log2 p1.1 + p1.2 = Nat.log2 x + 63 := by simpa using h1.2.2.1
  have hs2 := h2.2.2.1
  have hs3 := h3.2.2.1
  have hs4 := h4.2.2.1
  have hs5 := h5.2.2.1
  have hmask : (0x8000000000000000 : Nat) = 2 ^ 64 - 2 ^ 63 := by norm_num
  by_cases hc : p5.1 &&& 0x8000000000000000 = 0
  · rw [if_pos hc]
    rw [hmask] at hc
    have hlt : p5.1 < 2 ^ 63 :=
      (and_high_mask_eq_zero_iff 64 63 p5.1 (by norm_num) h5.2.1).1 hc
    have hl5 : Nat.log2 p5.1 = 62 := log2_unique p5.1 62 h5.1 (by simpa using hlt)
    omega
  · rw [if_neg hc]
    rw [hmask] at hc
    have hge : 2 ^ 63 ≤ p5.1 := by
      by_contra hlt
      push_neg at hlt
      exact hc ((and_high_mask_eq_zero_iff 64 63 p5.1 (by norm_num) h5.2.1).2 hlt)
    have hl5 : Nat.log2 p5.1 = 63 := log2_unique p5.1 63 hge (by simpa using h5.2.1)
    omega

/-- CAM_OS_FLS64 (either configuration) computes one plus the most
significant set bit index of a nonzero u64. -/
theorem fls64_eq_log2_add_one (x : Nat) (h0 : x ≠ 0) (hx : x < 2 ^ 64) :
    CAM_OS_FLS64_cfg32 x = Nat.log2 x + 1 ∧
    CAM_OS_FLS64_cfg64 x = Nat.log2 x + 1 := by
  constructor
  · rw [CAM_OS_FLS64_cfg32]
    have hdiv : x >>> 32 = x / 2 ^ 32 := Nat.shiftRight_eq_div_pow x 32
    have hlt : x / 2 ^ 32 < 2 ^ 32 := by
      rw [Nat.div_lt_iff_lt_mul (Nat.two_pow_pos 32)]
      calc x < 2 ^ 64 := hx
        _ = 2 ^ 32 * 2 ^ 32 := by norm_num
    have hmod : (x >>> 32) % 2 ^ 32 = x / 2 ^ 32 := by
      rw [hdiv, Nat.mod_eq_of_lt hlt]
    by_cases hh : x / 2 ^ 32 = 0
    · have hx32 : x < 2 ^ 32 := by
        by_contra hge
        push_neg at hge
        have h1 := (Nat.one_le_div_iff (Nat.two_pow_pos 32)).2 hge
        omega
      have hz : ¬((x >>> 32) % 2 ^ 32 ≠ 0) := by
        rw [hmod]
        exact fun hne => hne hh
      rw [if_neg hz, Nat.mod_eq_of_lt hx32]
      exact fls_eq_log2_add_one x h0 hx32
    · have hge : 2 ^ 32 ≤ x := by
        by_contra hlt'
        push_neg at hlt'
        exact hh (Nat.div_eq_of_lt hlt')
      have hnz : (x >>> 32) % 2 ^ 32 ≠ 0 := by
        rw [hmod]
        exact hh
      rw [if_pos hnz, hmod,
        fls_eq_log2_add_one (x / 2 ^ 32) hh hlt,
        log2_div_two_pow x 32 hge]
      have : 32 ≤ Nat.log2 x := (Nat.le_log2 h0).2 hge
      omega
  · rw [CAM_OS_FLS64_cfg64, if_neg h0, cascade64_eq_log2 x h0 hx]

/-! ### CAM_OS_FFS and CAM_OS_FFZ (cam_os_util_bitmap.h lines 44-54)

CAM_OS_FFS(x) is CAM_OS_FLS(x & -x) with x an unsigned long; passing the
unsigned long x & -x to the s32 parameter of CAM_OS_FLS keeps only its low
32 bits.  W is CAM_OS_BITS_PER_LONG. -/

/-- CAM_OS_FFS: x & -x on a W-bit unsigned long, truncated to 32 bits by the
conversion to the s32 parameter of CAM_OS_FLS. -/
def CAM_OS_FFS (W x : Nat) : Nat :=
  CAM_OS_FLS ((x &&& ((2 ^ W - x % 2 ^ W) % 2 ^ W)) % 2 ^ 32)

/-- The helper _CAM_OS_FFS returns CAM_OS_FFS(x) - 1 as an unsigned long, so
a zero CAM_OS_FFS result wraps around to 2^W - 1. -/
def _CAM_OS_FFS (W x : Nat) : Nat := (CAM_OS_FFS W x + (2 ^ W - 1)) % 2 ^ W

/-- CAM_OS_FFZ(x) is _CAM_OS_FFS(~x); the complement of a W-bit unsigned
long is (2^W - 1) XOR x. -/
def CAM_OS_FFZ (W x : Nat) : Nat := _CAM_OS_FFS W ((2 ^ W - 1) ^^^ x)

/-- The bits of m - 1 for odd m: bit 0 clears, the higher bits are those of
m. -/
theorem testBit_sub_one_of_odd (m : Nat) (hm : m % 2 = 1) :
    ((m - 1).testBit 0 = false) ∧ ∀ j, (m - 1).testBit (j + 1) = m.testBit (j + 1) := by
  obtain ⟨c, hc⟩ : ∃ c, m = 2 * c + 1 := ⟨m / 2, by omega⟩
  subst hc
  constructor
  · rw [Nat.testBit_zero]
    simp
  · intro j
    rw [Nat.testBit_add_one, Nat.testBit_add_one]
    congr 1
    omega

/-- For an odd m below 2^s, m & (2^s - m) isolates bit 0. -/
theorem odd_and_two_pow_sub (m s : Nat) (hm : m % 2 = 1) (hms : m < 2 ^ s) :
    m &&& (2 ^ s - m) = 1 := by
  have hm1 : 1 ≤ m := by omega
  have hs : 1 ≤ s := by
    by_contra h
    push_neg at h
    have hs0 : s = 0 := by omega
    subst hs0
    norm_num at hms
    omega
  have hsub : 2 ^ s - m = 2 ^ s - ((m - 1) + 1) := by omega
  have hb := testBit_sub_one_of_odd m hm
  apply Nat.eq_of_testBit_eq
  intro j
  rw [Nat.testBit_and, hsub, Nat.testBit_two_pow_sub_succ (by omega : m - 1 < 2 ^ s)]
  cases j with
  | zero =>
    have hm0 : m.testBit 0 = true := by
      rw [Nat.testBit_zero]
      simp [hm]
    rw [hm0, hb.1]
    simp [hs]
    omega
  | succ j =>
    rw [hb.2 j]
    have h1 : (1 : Nat).testBit (j + 1) = false := by
      rw [Nat.testBit_add_one]
      simp
    rw [h1]
    cases hmj : m.testBit (j + 1) <;> simp [hmj]

/-- Two's-complement lowest-set-bit isolation: if bit k of x is its lowest
set bit then x & ((2^W - x) mod 2^W) = 2^k, for 0 < x < 2^W. -/
theorem and_neg_eq_two_pow (W x k : Nat) (hx : x < 2 ^ W)
    (hbit : x.testBit k = true) (hlow : ∀ j, j < k → x.testBit j = false) :
    x &&& ((2 ^ W - x % 2 ^ W) % 2 ^ W) = 2 ^ k := by
  have hx1 : 1 ≤ x := by
    rcases Nat.eq_zero_or_pos x with h | h
    · subst h
      simp at hbit
    · exact h
  have hxW : (0:Nat) < 2 ^ W := Nat.two_pow_pos W
  have hxmod : x % 2 ^ W = x := Nat.mod_eq_of_lt hx
  rw [hxmod, Nat.mod_eq_of_lt (by omega : 2 ^ W - x < 2 ^ W)]
  have hmod0 : x % 2 ^ k = 0 := by
    apply Nat.eq_of_testBit_eq
    intro j
    rw [Nat.testBit_mod_two_pow, Nat.zero_testBit]
    by_cases hj : j < k
    · simp [hj, hlow j hj]
    · simp [hj]
  have hxm : 2 ^ k * (x / 2 ^ k) = x := by
    conv_rhs => rw [← Nat.div_add_mod x (2 ^ k)]
    rw [hmod0, Nat.add_zero]
  set m := x / 2 ^ k with hmdef
  have hmodd : m % 2 = 1 := by
    have hb := hbit
    rw [Nat.testBit_to_div_mod] at hb
    simpa using hb
  have hkW : k < W := by
    by_contra h
    push_neg at h
    have hxk : x < 2 ^ k := lt_of_lt_of_le hx (Nat.pow_le_pow_right (by norm_num) h)
    have := Nat.testBit_lt_two_pow hxk
    rw [this] at hbit
    simp at hbit
  have hWk : W - k + k = W := by omega
  have hmlt : m < 2 ^ (W - k) := by
    rw [hmdef, Nat.div_lt_iff_lt_mul (Nat.two_pow_pos k), ← Nat.pow_add, hWk]
    exact hx
  have hsub : 2 ^ W - x = (2 ^ (W - k) - m) * 2 ^ k := by
    rw [Nat.sub_mul, ← Nat.pow_add, hWk, Nat.mul_comm m (2 ^ k), hxm]
  have hand : m &&& (2 ^ (W - k) - m) = 1 := odd_and_two_pow_sub m (W - k) hmodd hmlt
  apply Nat.eq_of_testBit_eq
  intro j
  have hL : x.testBit j = (decide (j ≥ k) && m.testBit (j - k)) := by
    rw [← hxm, Nat.testBit_mul_pow_two]
  have hR : (2 ^ W - x).testBit j =
      (decide (j ≥ k) && (2 ^ (W - k) - m).testBit (j - k)) := by
    rw [hsub, Nat.mul_comm, Nat.testBit_mul_pow_two]
  have h1 : (m.testBit (j - k) && (2 ^ (W - k) - m).testBit (j - k)) =
      (1 : Nat).testBit (j - k) := by
    rw [← Nat.testBit_and, hand]
  rw [Nat.testBit_and, hL, hR, Nat.testBit_two_pow]
  by_cases hjk : k ≤ j
  · have hdec : decide (j ≥ k) = true := by simp [hjk]
    rw [hdec]
    simp only [Bool.true_and]
    rw [show (m.testBit (j - k) && (2 ^ (W - k) - m).testBit (j - k)) =
      (1 : Nat).testBit (j - k) from h1]
    rcases Nat.eq_or_lt_of_le hjk with he | hlt2
    · rw [← he]
      simp
    · have hj1 : j - k = (j - k - 1) + 1 := by omega
      rw [hj1, Nat.testBit_add_one]
      simp
      omega
  · have hdec : decide (j ≥ k) = false := by simp [hjk]
    rw [hdec]
    simp
    omega

/-- CAM_OS_FFS returns one plus the index of the lowest set bit whenever
that index fits the 32-bit truncation to the s32 parameter of CAM_OS_FLS. -/
theorem cam_os_ffs_eq (W x k : Nat) (hx : x < 2 ^ W)
    (hbit : x.testBit k = true) (hlow : ∀ j, j < k → x.testBit j = false)
    (hk : k < 32) :
    CAM_OS_FFS W x = k + 1 := by
  rw [CAM_OS_FFS, and_neg_eq_two_pow W x k hx hbit hlow,
    Nat.mod_eq_of_lt (Nat.pow_lt_pow_right (by norm_num) hk),
    fls_eq_log2_add_one (2 ^ k) (Nat.two_pow_pos k).ne'
      (Nat.pow_lt_pow_right (by norm_num) hk),
    Nat.log2_two_pow]

/-- CAM_OS_FFZ returns the index of the lowest clear bit whenever that index
is below 32. -/
theorem cam_os_ffz_eq (W x k : Nat) (hW : 32 ≤ W) (hx : x < 2 ^ W)
    (hbit : x.testBit k = false) (hlow : ∀ j, j < k → x.testBit j = true)
    (hk : k < 32) :
    CAM_OS_FFZ W x = k := by
  have hWpos : (0:Nat) < 2 ^ W := Nat.two_pow_pos W
  rw [CAM_OS_FFZ]
  set y := (2 ^ W - 1) ^^^ x with hy
  have hyW : y < 2 ^ W := Nat.xor_lt_two_pow (by omega) hx
  have hybit : y.testBit k = true := by
    rw [hy, Nat.testBit_xor, Nat.testBit_two_pow_sub_one, hbit]
    simp
    omega
  have hylow : ∀ j, j < k → y.testBit j = false := by
    intro j hj
    rw [hy, Nat.testBit_xor, Nat.testBit_two_pow_sub_one, hlow j hj]
    simp
    omega
  have hffs : CAM_OS_FFS W y = k + 1 := cam_os_ffs_eq W y k hyW hybit hylow hk
  rw [_CAM_OS_FFS, hffs]
  have h1 : k + 1 + (2 ^ W - 1) = k + 2 ^ W := by omega
  rw [h1, Nat.add_mod_right]
  apply Nat.mod_eq_of_lt
  have h2 : W < 2 ^ W := Nat.lt_two_pow W
  omega

/-- Claim C2 counterexample: in the CAM_OS_BITS_PER_LONG == 64
configuration (live on aarch64 per cam_os_wrapper.h), the unsigned long
2^32 has its least significant set bit at index 32 (its low 32 bits are
zero), so the claim demands CAM_OS_FFS = 33; but the conversion of x & -x
to the s32 parameter of CAM_OS_FLS drops bit 32 and the code returns 0. -/
theorem cam_os_ffs_claim_counterexample :
    CAM_OS_FFS 64 (2 ^ 32) = 0 ∧ Nat.testBit (2 ^ 32) 32 = true ∧
    2 ^ 32 % 2 ^ 32 = 0 ∧ (0 : Nat) ≠ 32 + 1 := by
  have h1 : (2 ^ 32 : Nat) &&& ((2 ^ 64 - 2 ^ 32 % 2 ^ 64) % 2 ^ 64) = 2 ^ 32 :=
    and_neg_eq_two_pow 64 (2 ^ 32) 32 (by norm_num)
      (by rw [Nat.testBit_two_pow]; simp)
      (fun j hj => by rw [Nat.testBit_two_pow]; simp; omega)
  refine ⟨?_, by rw [Nat.testBit_two_pow]; simp, Nat.mod_self _, by omega⟩
  rw [CAM_OS_FFS, h1, Nat.mod_self]
  simp [CAM_OS_FLS]

/-- Claim C2 amended: CAM_OS_FFS(0) = 0, and CAM_OS_FFS (resp. CAM_OS_FFZ)
returns one plus the lowest set bit index (resp. the lowest clear bit
index) provided that index is below 32 — in the 32-bit configuration this
is every case in which the bit exists; in the 64-bit configuration indices
of 32 and above are lost by the conversion to the s32 parameter of
CAM_OS_FLS. -/
theorem cam_os_ffs_ffz_amended (W x k : Nat) (hW : W = 32 ∨ W = 64)
    (hx : x < 2 ^ W) (hk : k < 32) :
    CAM_OS_FFS W 0 = 0 ∧
    (x.testBit k = true → (∀ j, j < k → x.testBit j = false) →
      CAM_OS_FFS W x = k + 1) ∧
    (x.testBit k = false → (∀ j, j < k → x.testBit j = true) →
      CAM_OS_FFZ W x = k) := by
  have hW32 : 32 ≤ W := by rcases hW with h | h <;> omega
  refine ⟨?_, fun h1 h2 => cam_os_ffs_eq W x k hx h1 h2 hk,
    fun h1 h2 => cam_os_ffz_eq W x k hW32 hx h1 h2 hk⟩
  rw [CAM_OS_FFS]
  simp [CAM_OS_FLS]

/-- Witness for the amended claim C2: 12 = 0b1100 has lowest set bit 2, and
3 = 0b11 has lowest clear bit 2, in the 32-bit configuration. -/
theorem cam_os_ffs_ffz_amended_witness :
    CAM_OS_FFS 32 12 = 2 + 1 ∧ CAM_OS_FFZ 32 3 = 2 :=
  ⟨(cam_os_ffs_ffz_amended 32 12 2 (Or.inl rfl) (by norm_num) (by norm_num)).2.1
      (by decide) (fun j hj => by interval_cases j <;> decide),
   (cam_os_ffs_ffz_amended 32 3 2 (Or.inl rfl) (by norm_num) (by norm_num)).2.2
      (by decide) (fun j hj => by interval_cases j <;> decide)⟩

/-! ### CAM_OS_ILOG2 (cam_os_util_hash.h lines 27-63) -/

/-- _CAM_OS_ILOG2_U32 from cam_os_util_hash.h: CAM_OS_FLS(n) - 1. -/
def _CAM_OS_ILOG2_U32 (n : Nat) : Nat := CAM_OS_FLS n - 1

/-- _CAM_OS_ILOG2_U64 with the 32-bit-long CAM_OS_FLS64. -/
def _CAM_OS_ILOG2_U64_cfg32 (n : Nat) : Nat := CAM_OS_FLS64_cfg32 n - 1

/-- _CAM_OS_ILOG2_U64 with the 64-bit-long CAM_OS_FLS64. -/
def _CAM_OS_ILOG2_U64_cfg64 (n : Nat) : Nat := CAM_OS_FLS64_cfg64 n - 1

/-- The 64-way conditional chain of CAM_OS_ILOG2's constant-expression
branch: ilog2Scan n j performs the tests (n) & (1ULL << j), (n) & (1ULL <<
(j-1)), ..., (n) & (1ULL << 0) in that order, returning the first index
whose bit is set; the source's final alternative yields 0. -/
def ilog2Scan (n : Nat) : Nat → Nat
  | 0 => if n &&& 1 <<< 0 ≠ 0 then 0 else 0
  | j + 1 => if n &&& 1 <<< (j + 1) ≠ 0 then j + 1 else ilog2Scan n j

/-- The constant-expression branch of CAM_OS_ILOG2: 0 when (n) < 1,
otherwise the chain testing bits 63 down to 0. -/
def CAM_OS_ILOG2_const (n : Nat) : Nat :=
  if n < 1 then 0 else ilog2Scan n 63

/-- The downward scan returns the highest set bit index. -/
theorem ilog2Scan_eq_log2 (n : Nat) (j : Nat) (h0 : 0 < n) (hj : n < 2 ^ (j + 1)) :
    ilog2Scan n j = Nat.log2 n := by
  induction j with
  | zero =>
    have h2 : (2:Nat) ^ (0 + 1) = 2 := by norm_num
    have hn1 : n = 1 := by omega
    subst hn1
    rw [ilog2Scan]
    have : Nat.log2 1 = 0 := log2_unique 1 0 (by norm_num) (by norm_num)
    rw [this]
    simp
  | succ j ih =>
    have hsh : (1 : Nat) <<< (j + 1) = 2 ^ (j + 1) := by
      rw [Nat.shiftLeft_eq, Nat.one_mul]
    rw [ilog2Scan, hsh]
    by_cases hb : n.testBit (j + 1) = true
    · rw [if_pos (by
        intro hz
        rw [(and_two_pow_eq_zero_iff n (j + 1)).1 hz] at hb
        simp at hb)]
      exact (log2_unique n (j + 1) (Nat.testBit_implies_ge hb) hj).symm
    · have hz : n &&& 2 ^ (j + 1) = 0 :=
        (and_two_pow_eq_zero_iff n (j + 1)).2 (by simpa using hb)
      rw [if_neg (by simpa using hz)]
      apply ih
      by_contra hge
      push_neg at hge
      have hl : Nat.log2 n = j + 1 := log2_unique n (j + 1) hge hj
      have := testBit_log2_self n (by omega)
      rw [hl] at this
      exact hb this

/-- Claim C3: for 1 <= n < 2^64 the constant-expression branch of
CAM_OS_ILOG2 (the 64-way conditional chain) computes floor(log2 n), and it
agrees with the runtime branches _CAM_OS_ILOG2_U32 (operands of at most 4
bytes, n < 2^32) and _CAM_OS_ILOG2_U64 (either CAM_OS_FLS64
configuration). -/
theorem cam_os_ilog2_branches_agree (n : Nat) (h1 : 1 ≤ n) (h64 : n < 2 ^ 64) :
    CAM_OS_ILOG2_const n = Nat.log2 n ∧
    (n < 2 ^ 32 → _CAM_OS_ILOG2_U32 n = Nat.log2 n ∧
      _CAM_OS_ILOG2_U32 n = CAM_OS_ILOG2_const n) ∧
    _CAM_OS_ILOG2_U64_cfg32 n = Nat.log2 n ∧
    _CAM_OS_ILOG2_U64_cfg64 n = Nat.log2 n ∧
    _CAM_OS_ILOG2_U64_cfg32 n = CAM_OS_ILOG2_const n ∧
    _CAM_OS_ILOG2_U64_cfg64 n = CAM_OS_ILOG2_const n := by
  have hn0 : n ≠ 0 := by omega
  have hconst : CAM_OS_ILOG2_const n = Nat.log2 n := by
    rw [CAM_OS_ILOG2_const, if_neg (by omega)]
    exact ilog2Scan_eq_log2 n 63 (by omega) h64
  have h643 := fls64_eq_log2_add_one n hn0 h64
  have hc32 : _CAM_OS_ILOG2_U64_cfg32 n = Nat.log2 n := by
    rw [_CAM_OS_ILOG2_U64_cfg32, h643.1]
    omega
  have hc64 : _CAM_OS_ILOG2_U64_cfg64 n = Nat.log2 n := by
    rw [_CAM_OS_ILOG2_U64_cfg64, h643.2]
    omega
  refine ⟨hconst, fun h32 => ?_, hc32, hc64, by rw [hc32, hconst], by rw [hc64, hconst]⟩
  have hu32 : _CAM_OS_ILOG2_U32 n = Nat.log2 n := by
    rw [_CAM_OS_ILOG2_U32, fls_eq_log2_add_one n hn0 h32]
    omega
  exact ⟨hu32, by rw [hu32, hconst]⟩

/-- Witness for claim C3 at n = 5 (log2 = 2). -/
theorem cam_os_ilog2_branches_agree_witness :
    CAM_OS_ILOG2_const 5 = Nat.log2 5 ∧
    (5 < 2 ^ 32 → _CAM_OS_ILOG2_U32 5 = Nat.log2 5 ∧
      _CAM_OS_ILOG2_U32 5 = CAM_OS_ILOG2_const 5) ∧
    _CAM_OS_ILOG2_U64_cfg32 5 = Nat.log2 5 ∧
    _CAM_OS_ILOG2_U64_cfg64 5 = Nat.log2 5 ∧
    _CAM_OS_ILOG2_U64_cfg32 5 = CAM_OS_ILOG2_const 5 ∧
    _CAM_OS_ILOG2_U64_cfg64 5 = CAM_OS_ILOG2_const 5 :=
  cam_os_ilog2_branches_agree 5 (by norm_num) (by norm_num)

/-! ### CAM_OS_HASH_32 / CAM_OS_HASH_64 (cam_os_util_list.h lines 189-236)
and the hash-table bucket selection of cam_os_util_hash.h -/

/-- CAM_OS_HASH_32: the u32 product val * CAM_OS_GOLDEN_RATIO_PRIME_32
(0x9e370001), shifted right to keep its top bits. -/
def CAM_OS_HASH_32 (val bits : Nat) : Nat :=
  ((val * 0x9e370001) % 2 ^ 32) >>> (32 - bits)

/-- CAM_OS_HASH_64: the u64 product val * CAM_OS_GOLDEN_RATIO_PRIME_64
(0x9e37fffffffc0001), shifted right to keep its top bits. -/
def CAM_OS_HASH_64 (val bits : Nat) : Nat :=
  ((val * 0x9e37fffffffc0001) % 2 ^ 64) >>> (64 - bits)

/-- CAM_OS_HASH_MIN for a key of at most 4 bytes selects CAM_OS_HASH_32. -/
def CAM_OS_HASH_MIN_u32 (val bits : Nat) : Nat := CAM_OS_HASH_32 val bits

/-- The top-bits extraction keeps the result below 2^bits. -/
theorem hash_shift_lt (h w bits : Nat) (hb : bits ≤ w) :
    (h % 2 ^ w) >>> (w - bits) < 2 ^ bits := by
  rw [Nat.shiftRight_eq_div_pow, Nat.div_lt_iff_lt_mul (Nat.two_pow_pos _),
    ← Nat.pow_add]
  have heq : bits + (w - bits) = w := by omega
  rw [heq]
  exact Nat.mod_lt _ (Nat.two_pow_pos w)

/-- Claim C4: CAM_OS_HASH_32 computes the stated multiply-and-shift and its
result is below 2^bits (similarly CAM_OS_HASH_64 with the 64-bit golden
ratio prime); consequently the bucket index CAM_OS_HASH_MIN(key,
CAM_OS_HASH_BITS(hashtable)) that CAM_OS_HASH_ADD uses for a table of
2^b CamOsHListHead_t entries (whose CAM_OS_HASH_BITS is the
constant-branch CAM_OS_ILOG2 of 2^b, namely b) is always inside the
table. -/
theorem cam_os_hash_bounds (val bits : Nat) (h1 : 1 ≤ bits) (h32 : bits ≤ 32) :
    CAM_OS_HASH_32 val bits = ((val * 0x9e370001) % 2 ^ 32) >>> (32 - bits) ∧
    CAM_OS_HASH_32 val bits < 2 ^ bits ∧
    (∀ v b, 1 ≤ b → b ≤ 64 → CAM_OS_HASH_64 v b < 2 ^ b) ∧
    (∀ key b, 1 ≤ b → b ≤ 32 →
      CAM_OS_HASH_MIN_u32 key (CAM_OS_ILOG2_const (2 ^ b)) < 2 ^ b) := by
  refine ⟨rfl, hash_shift_lt _ 32 bits h32, fun v b hb1 hb64 => hash_shift_lt _ 64 b hb64,
    fun key b hb1 hb32 => ?_⟩
  have hchain : CAM_OS_ILOG2_const (2 ^ b) = b := by
    rw [CAM_OS_ILOG2_const, if_neg (by have := Nat.two_pow_pos b; omega),
      ilog2Scan_eq_log2 (2 ^ b) 63 (Nat.two_pow_pos b)
        (lt_of_lt_of_le (Nat.pow_lt_pow_right (by norm_num) (by omega : b < 64))
          (le_refl _)),
      Nat.log2_two_pow]
  rw [hchain]
  exact hash_shift_lt _ 32 b hb32

/-- Witness for claim C4 at val = 0x12345678, bits = 7. -/
theorem cam_os_hash_bounds_witness :
    CAM_OS_HASH_32 0x12345678 7 =
      ((0x12345678 * 0x9e370001) % 2 ^ 32) >>> (32 - 7) ∧
    CAM_OS_HASH_32 0x12345678 7 < 2 ^ 7 ∧
    (∀ v b, 1 ≤ b → b ≤ 64 → CAM_OS_HASH_64 v b < 2 ^ b) ∧
    (∀ key b, 1 ≤ b → b ≤ 32 →
      CAM_OS_HASH_MIN_u32 key (CAM_OS_ILOG2_const (2 ^ b)) < 2 ^ b) :=
  cam_os_hash_bounds 0x12345678 7 (by norm_num) (by norm_num)

/-! ### CAM_OS_IOC ioctl encoding (cam_os_util_ioctl.h lines 27-69) -/

/-- CAM_OS_IOC: the fields are or-ed at shifts DIRSHIFT = 30,
TYPESHIFT = 8, NRSHIFT = 0, SIZESHIFT = 16. -/
def CAM_OS_IOC (dir ty nr size : Nat) : Nat :=
  (dir <<< 30) ||| (ty <<< 8) ||| (nr <<< 0) ||| (size <<< 16)

/-- CAM_OS_IOC_DIR: bits 30.. masked with CAM_OS_IOC_DIRMASK = (1<<2)-1. -/
def CAM_OS_IOC_DIR (nr : Nat) : Nat := (nr >>> 30) &&& ((1 <<< 2) - 1)

/-- CAM_OS_IOC_TYPE: bits 8.. masked with (1<<8)-1. -/
def CAM_OS_IOC_TYPE (nr : Nat) : Nat := (nr >>> 8) &&& ((1 <<< 8) - 1)

/-- CAM_OS_IOC_NR: bits 0.. masked with (1<<8)-1. -/
def CAM_OS_IOC_NR (nr : Nat) : Nat := (nr >>> 0) &&& ((1 <<< 8) - 1)

/-- CAM_OS_IOC_SIZE: bits 16.. masked with (1<<14)-1. -/
def CAM_OS_IOC_SIZE (nr : Nat) : Nat := (nr >>> 16) &&& ((1 <<< 14) - 1)

/-- The encoded ioctl number as a plain sum of disjoint fields. -/
theorem cam_os_ioc_eq_sum (dir ty nr size : Nat) (hdir : dir < 2 ^ 2)
    (hty : ty < 2 ^ 8) (hnr : nr < 2 ^ 8) (hsize : size < 2 ^ 14) :
    CAM_OS_IOC dir ty nr size =
      dir * 2 ^ 30 + size * 2 ^ 16 + ty * 2 ^ 8 + nr := by
  rw [CAM_OS_IOC]
  rw [Nat.shiftLeft_eq, Nat.shiftLeft_eq, Nat.shiftLeft_eq, Nat.shiftLeft_eq]
  rw [Nat.pow_zero, Nat.mul_one]
  have h1 : ty * 2 ^ 8 ||| nr = ty * 2 ^ 8 + nr := by
    rw [Nat.mul_comm, ← Nat.mul_add_lt_is_or hnr]
  have hinner : ty * 2 ^ 8 ||| (nr ||| size * 2 ^ 16) =
      size * 2 ^ 16 ||| (ty * 2 ^ 8 ||| nr) := by
    rw [Nat.or_comm nr (size * 2 ^ 16), ← Nat.or_assoc,
      Nat.or_comm (ty * 2 ^ 8) (size * 2 ^ 16), Nat.or_assoc]
  have hassoc : dir * 2 ^ 30 ||| ty * 2 ^ 8 ||| nr ||| size * 2 ^ 16 =
      dir * 2 ^ 30 ||| (size * 2 ^ 16 ||| (ty * 2 ^ 8 ||| nr)) := by
    rw [Nat.or_assoc, Nat.or_assoc, hinner]
  rw [hassoc, h1]
  have h2 : size * 2 ^ 16 ||| (ty * 2 ^ 8 + nr) =
      size * 2 ^ 16 + (ty * 2 ^ 8 + nr) := by
    rw [Nat.mul_comm, ← Nat.mul_add_lt_is_or (by omega)]
  rw [h2]
  have h3 : dir * 2 ^ 30 ||| (size * 2 ^ 16 + (ty * 2 ^ 8 + nr)) =
      dir * 2 ^ 30 + (size * 2 ^ 16 + (ty * 2 ^ 8 + nr)) := by
    rw [Nat.mul_comm, ← Nat.mul_add_lt_is_or (by omega)]
  rw [h3]
  ring

/-- Claim C5: the ioctl decode macros recover exactly the fields encoded by
CAM_OS_IOC for in-range dir, type, nr and size. -/
theorem cam_os_ioc_roundtrip (dir ty nr size : Nat) (hdir : dir < 2 ^ 2)
    (hty : ty < 2 ^ 8) (hnr : nr < 2 ^ 8) (hsize : size < 2 ^ 14) :
    CAM_OS_IOC_DIR (CAM_OS_IOC dir ty nr size) = dir ∧
    CAM_OS_IOC_TYPE (CAM_OS_IOC dir ty nr size) = ty ∧
    CAM_OS_IOC_NR (CAM_OS_IOC dir ty nr size) = nr ∧
    CAM_OS_IOC_SIZE (CAM_OS_IOC dir ty nr size) = size := by
  have hsum := cam_os_ioc_eq_sum dir ty nr size hdir hty hnr hsize
  have hmask2 : ((1 : Nat) <<< 2) - 1 = 2 ^ 2 - 1 := by decide
  have hmask8 : ((1 : Nat) <<< 8) - 1 = 2 ^ 8 - 1 := by decide
  have hmask14 : ((1 : Nat) <<< 14) - 1 = 2 ^ 14 - 1 := by decide
  refine ⟨?_, ?_, ?_, ?_⟩
  · rw [CAM_OS_IOC_DIR, hsum, hmask2, Nat.and_pow_two_sub_one_eq_mod,
      Nat.shiftRight_eq_div_pow]
    norm_num
    omega
  · rw [CAM_OS_IOC_TYPE, hsum, hmask8, Nat.and_pow_two_sub_one_eq_mod,
      Nat.shiftRight_eq_div_pow]
    norm_num
    omega
  · rw [CAM_OS_IOC_NR, hsum, hmask8, Nat.and_pow_two_sub_one_eq_mod,
      Nat.shiftRight_eq_div_pow]
    norm_num
    omega
  · rw [CAM_OS_IOC_SIZE, hsum, hmask14, Nat.and_pow_two_sub_one_eq_mod,
      Nat.shiftRight_eq_div_pow]
    norm_num
    omega

/-- Witness for claim C5 at dir = 2 (read), type = 0x42, nr = 7,
size = 516. -/
theorem cam_os_ioc_roundtrip_witness :
    CAM_OS_IOC_DIR (CAM_OS_IOC 2 0x42 7 516) = 2 ∧
    CAM_OS_IOC_TYPE (CAM_OS_IOC 2 0x42 7 516) = 0x42 ∧
    CAM_OS_IOC_NR (CAM_OS_IOC 2 0x42 7 516) = 7 ∧
    CAM_OS_IOC_SIZE (CAM_OS_IOC 2 0x42 7 516) = 516 :=
  cam_os_ioc_roundtrip 2 0x42 7 516 (by norm_num) (by norm_num) (by norm_num)
    (by norm_num)

/-! ### Intrusive circular doubly-linked list (cam_os_util_list.h lines
24-137)

Nodes are memory addresses, modelled as Nat; a heap assigns to every
address the values of its pNext and pPrev fields.  Each C pointer store
becomes one functional update, later stores outermost. -/

/-- The pNext / pPrev fields of every struct CamOsListHead_t. -/
structure Heap where
  next : Nat → Nat
  prev : Nat → Nat

/-- One pointer store: f with f a := v. -/
def upd (f : Nat → Nat) (a v : Nat) : Nat → Nat := fun x => if x = a then v else f x

/-- CAM_OS_INIT_LIST_HEAD: pList->pNext = pList; pList->pPrev = pList. -/
def CAM_OS_INIT_LIST_HEAD (l : Nat) (h : Heap) : Heap :=
  { next := upd h.next l l, prev := upd h.prev l l }

/-- _CAM_OS_LIST_ADD(pNew, pPrev, pNext): pNext->pPrev = pNew;
pNew->pNext = pNext; pNew->pPrev = pPrev; pPrev->pNext = pNew. -/
def _CAM_OS_LIST_ADD (pNew pPrev pNext : Nat) (h : Heap) : Heap :=
  { next := upd (upd h.next pNew pNext) pPrev pNew,
    prev := upd (upd h.prev pNext pNew) pNew pPrev }

/-- CAM_OS_LIST_ADD(pNew, head) = _CAM_OS_LIST_ADD(pNew, head, head->pNext). -/
def CAM_OS_LIST_ADD (pNew head : Nat) (h : Heap) : Heap :=
  _CAM_OS_LIST_ADD pNew head (h.next head) h

/-- CAM_OS_LIST_ADD_TAIL(pNew, head) = _CAM_OS_LIST_ADD(pNew, head->pPrev, head). -/
def CAM_OS_LIST_ADD_TAIL (pNew head : Nat) (h : Heap) : Heap :=
  _CAM_OS_LIST_ADD pNew (h.prev head) head h

/-- _CAM_OS_LIST_DEL(pPrev, pNext): pNext->pPrev = pPrev; pPrev->pNext = pNext. -/
def _CAM_OS_LIST_DEL (pPrev pNext : Nat) (h : Heap) : Heap :=
  { next := upd h.next pPrev pNext, prev := upd h.prev pNext pPrev }

/-- _CAM_OS_LIST_DEL_ENTRY(entry). -/
def _CAM_OS_LIST_DEL_ENTRY (e : Nat) (h : Heap) : Heap :=
  _CAM_OS_LIST_DEL (h.prev e) (h.next e) h

/-- CAM_OS_LIST_DEL: splice the entry out, then store the poison values
CAM_OS_LIST_POISON1 = 0x00100100 and CAM_OS_LIST_POISON2 = 0x00200200 into
its fields. -/
def CAM_OS_LIST_DEL (e : Nat) (h : Heap) : Heap :=
  { next := upd (_CAM_OS_LIST_DEL (h.prev e) (h.next e) h).next e 0x00100100,
    prev := upd (_CAM_OS_LIST_DEL (h.prev e) (h.next e) h).prev e 0x00200200 }

/-- CAM_OS_LIST_DEL_INIT: splice out, then re-initialise the entry. -/
def CAM_OS_LIST_DEL_INIT (e : Nat) (h : Heap) : Heap :=
  CAM_OS_INIT_LIST_HEAD e (_CAM_OS_LIST_DEL_ENTRY e h)

/-- CAM_OS_LIST_EMPTY(head): head->pNext == head. -/
def CAM_OS_LIST_EMPTY (head : Nat) (h : Heap) : Bool :=
  decide (h.next head = head)

/-- Pointwise value of the pNext fields after CAM_OS_LIST_ADD. -/
theorem add_next_eval (n hd x : Nat) (h : Heap) :
    (CAM_OS_LIST_ADD n hd h).next x =
      if x = hd then n else if x = n then h.next hd else h.next x := rfl

/-- Pointwise value of the pPrev fields after CAM_OS_LIST_ADD. -/
theorem add_prev_eval (n hd x : Nat) (h : Heap) :
    (CAM_OS_LIST_ADD n hd h).prev x =
      if x = n then hd else if x = h.next hd then n else h.prev x := rfl

/-- Pointwise value of the pNext fields after CAM_OS_LIST_ADD_TAIL. -/
theorem addTail_next_eval (n hd x : Nat) (h : Heap) :
    (CAM_OS_LIST_ADD_TAIL n hd h).next x =
      if x = h.prev hd then n else if x = n then hd else h.next x := rfl

/-- Pointwise value of the pPrev fields after CAM_OS_LIST_ADD_TAIL. -/
theorem addTail_prev_eval (n hd x : Nat) (h : Heap) :
    (CAM_OS_LIST_ADD_TAIL n hd h).prev x =
      if x = n then h.prev hd else if x = hd then n else h.prev x := rfl

/-- Pointwise value of the pNext fields after CAM_OS_LIST_DEL_INIT. -/
theorem delInit_next_eval (e x : Nat) (h : Heap) :
    (CAM_OS_LIST_DEL_INIT e h).next x =
      if x = e then e else if x = h.prev e then h.next e else h.next x := rfl

/-- Pointwise value of the pPrev fields after CAM_OS_LIST_DEL_INIT. -/
theorem delInit_prev_eval (e x : Nat) (h : Heap) :
    (CAM_OS_LIST_DEL_INIT e h).prev x =
      if x = e then e else if x = h.next e then h.prev e else h.prev x := rfl

/-- Pointwise value of the pNext fields after CAM_OS_LIST_DEL. -/
theorem del_next_eval (e x : Nat) (h : Heap) :
    (CAM_OS_LIST_DEL e h).next x =
      if x = e then 0x00100100 else if x = h.prev e then h.next e else h.next x := rfl

/-- Pointwise value of the pPrev fields after CAM_OS_LIST_DEL. -/
theorem del_prev_eval (e x : Nat) (h : Heap) :
    (CAM_OS_LIST_DEL e h).prev x =
      if x = e then 0x00200200 else if x = h.next e then h.prev e else h.prev x := rfl

/-- Well-formedness of the circular-list heap on the set S of nodes that
currently sit on some list: S is closed under both pointers and they are
mutually inverse there. -/
def WF (h : Heap) (S : Finset Nat) : Prop :=
  ∀ p ∈ S, h.next p ∈ S ∧ h.prev p ∈ S ∧
    h.prev (h.next p) = p ∧ h.next (h.prev p) = p

/-- CAM_OS_LIST_ADD of a node not on any list preserves well-formedness. -/
theorem WF_add (h : Heap) (S : Finset Nat) (hWF : WF h S) (n hd : Nat)
    (hn : n ∉ S) (hhd : hd ∈ S) :
    WF (CAM_OS_LIST_ADD n hd h) (insert n S) := by
  have hdW := hWF hd hhd
  have hnhS : h.next hd ∈ S := hdW.1
  have hn_ne_hd : n ≠ hd := fun he => hn (he ▸ hhd)
  have hn_ne_nh : n ≠ h.next hd := fun he => hn (he ▸ hnhS)
  intro p hp
  rcases Finset.mem_insert.1 hp with rfl | hpS
  · refine ⟨?_, ?_, ?_, ?_⟩
    · rw [add_next_eval, if_neg hn_ne_hd, if_pos rfl]
      exact Finset.mem_insert_of_mem hnhS
    · rw [add_prev_eval, if_pos rfl]
      exact Finset.mem_insert_of_mem hhd
    · rw [add_next_eval, if_neg hn_ne_hd, if_pos rfl, add_prev_eval,
        if_neg (Ne.symm hn_ne_nh), if_pos rfl]
    · rw [add_prev_eval, if_pos rfl, add_next_eval, if_pos rfl]
  · have hp_ne_n : p ≠ n := fun he => hn (he ▸ hpS)
    have hpW := hWF p hpS
    by_cases hphd : p = hd
    · subst hphd
      by_cases hnh_hd : h.next p = p
      · refine ⟨?_, ?_, ?_, ?_⟩
        · rw [add_next_eval, if_pos rfl]
          exact Finset.mem_insert_self n S
        · rw [add_prev_eval, if_neg hp_ne_n, if_pos hnh_hd.symm]
          exact Finset.mem_insert_self n S
        · rw [add_next_eval, if_pos rfl, add_prev_eval, if_pos rfl]
        · rw [add_prev_eval, if_neg hp_ne_n, if_pos hnh_hd.symm,
            add_next_eval, if_neg hn_ne_hd, if_pos rfl]
          exact hnh_hd
      · have hph : h.prev p ∈ S := hpW.2.1
        have hph_ne_n : h.prev p ≠ n := fun he => hn (he ▸ hph)
        have hph_ne_hd : h.prev p ≠ p := by
          intro he
          have h1 := hpW.2.2.2
          rw [he] at h1
          exact hnh_hd h1
        refine ⟨?_, ?_, ?_, ?_⟩
        · rw [add_next_eval, if_pos rfl]
          exact Finset.mem_insert_self n S
        · rw [add_prev_eval, if_neg hp_ne_n, if_neg (fun he => hnh_hd he.symm)]
          exact Finset.mem_insert_of_mem hph
        · rw [add_next_eval, if_pos rfl, add_prev_eval, if_pos rfl]
        · rw [add_prev_eval, if_neg hp_ne_n, if_neg (fun he => hnh_hd he.symm),
            add_next_eval, if_neg hph_ne_hd, if_neg hph_ne_n]
          exact hpW.2.2.2
    · have hnp : h.next p ∈ S := hpW.1
      have hpp : h.prev p ∈ S := hpW.2.1
      have hnp_ne_n : h.next p ≠ n := fun he => hn (he ▸ hnp)
      have hpp_ne_n : h.prev p ≠ n := fun he => hn (he ▸ hpp)
      have hnp_ne_nh : h.next p ≠ h.next hd := by
        intro he
        have h1 := hpW.2.2.1
        rw [he, hdW.2.2.1] at h1
        exact hphd h1.symm
      refine ⟨?_, ?_, ?_, ?_⟩
      · rw [add_next_eval, if_neg hphd, if_neg hp_ne_n]
        exact Finset.mem_insert_of_mem hnp
      · by_cases hpnh : p = h.next hd
        · rw [add_prev_eval, if_neg hp_ne_n, if_pos hpnh]
          exact Finset.mem_insert_self n S
        · rw [add_prev_eval, if_neg hp_ne_n, if_neg hpnh]
          exact Finset.mem_insert_of_mem hpp
      · rw [add_next_eval, if_neg hphd, if_neg hp_ne_n,
          add_prev_eval, if_neg hnp_ne_n, if_neg hnp_ne_nh]
        exact hpW.2.2.1
      · by_cases hpnh : p = h.next hd
        · rw [add_prev_eval, if_neg hp_ne_n, if_pos hpnh,
            add_next_eval, if_neg hn_ne_hd, if_pos rfl]
          exact hpnh.symm
        · have hpp_ne_hd : h.prev p ≠ hd := by
            intro he
            have h1 := hpW.2.2.2
            rw [he] at h1
            exact hpnh h1.symm
          rw [add_prev_eval, if_neg hp_ne_n, if_neg hpnh,
            add_next_eval, if_neg hpp_ne_hd, if_neg hpp_ne_n]
          exact hpW.2.2.2

/-- CAM_OS_LIST_ADD_TAIL of a node not on any list preserves
well-formedness. -/
theorem WF_addTail (h : Heap) (S : Finset Nat) (hWF : WF h S) (n hd : Nat)
    (hn : n ∉ S) (hhd : hd ∈ S) :
    WF (CAM_OS_LIST_ADD_TAIL n hd h) (insert n S) := by
  have hdW := hWF hd hhd
  have hphS : h.prev hd ∈ S := hdW.2.1
  have hn_ne_hd : n ≠ hd := fun he => hn (he ▸ hhd)
  have hn_ne_ph : n ≠ h.prev hd := fun he => hn (he ▸ hphS)
  intro p hp
  rcases Finset.mem_insert.1 hp with rfl | hpS
  · refine ⟨?_, ?_, ?_, ?_⟩
    · rw [addTail_next_eval, if_neg hn_ne_ph, if_pos rfl]
      exact Finset.mem_insert_of_mem hhd
    · rw [addTail_prev_eval, if_pos rfl]
      exact Finset.mem_insert_of_mem hphS
    · rw [addTail_next_eval, if_neg hn_ne_ph, if_pos rfl, addTail_prev_eval,
        if_neg (Ne.symm hn_ne_hd), if_pos rfl]
    · rw [addTail_prev_eval, if_pos rfl, addTail_next_eval, if_pos rfl]
  · have hp_ne_n : p ≠ n := fun he => hn (he ▸ hpS)
    have hpW := hWF p hpS
    by_cases hphd : p = hd
    · subst hphd
      by_cases hph_hd : h.prev p = p
      · refine ⟨?_, ?_, ?_, ?_⟩
        · rw [addTail_next_eval, if_pos hph_hd.symm]
          exact Finset.mem_insert_self n S
        · rw [addTail_prev_eval, if_neg hp_ne_n, if_pos rfl]
          exact Finset.mem_insert_self n S
        · rw [addTail_next_eval, if_pos hph_hd.symm, addTail_prev_eval,
            if_pos rfl]
          exact hph_hd
        · rw [addTail_prev_eval, if_neg hp_ne_n, if_pos rfl,
            addTail_next_eval, if_neg hn_ne_ph, if_pos rfl]
      · have hnh : h.next p ∈ S := hpW.1
        have hnh_ne_n : h.next p ≠ n := fun he => hn (he ▸ hnh)
        have hnh_ne_hd : h.next p ≠ p := by
          intro he
          have h1 := hpW.2.2.1
          rw [he] at h1
          exact hph_hd h1
        refine ⟨?_, ?_, ?_, ?_⟩
        · rw [addTail_next_eval, if_neg (fun he => hph_hd he.symm), if_neg hp_ne_n]
          exact Finset.mem_insert_of_mem hnh
        · rw [addTail_prev_eval, if_neg hp_ne_n, if_pos rfl]
          exact Finset.mem_insert_self n S
        · rw [addTail_next_eval, if_neg (fun he => hph_hd he.symm), if_neg hp_ne_n,
            addTail_prev_eval, if_neg hnh_ne_n, if_neg hnh_ne_hd]
          exact hpW.2.2.1
        · rw [addTail_prev_eval, if_neg hp_ne_n, if_pos rfl,
            addTail_next_eval, if_neg hn_ne_ph, if_pos rfl]
    · have hnp : h.next p ∈ S := hpW.1
      have hpp : h.prev p ∈ S := hpW.2.1
      have hnp_ne_n : h.next p ≠ n := fun he => hn (he ▸ hnp)
      have hpp_ne_n : h.prev p ≠ n := fun he => hn (he ▸ hpp)
      have hpp_ne_ph : h.prev p ≠ h.prev hd := by
        intro he
        have h1 := hpW.2.2.2
        rw [he, hdW.2.2.2] at h1
        exact hphd h1.symm
      refine ⟨?_, ?_, ?_, ?_⟩
      · by_cases hpph : p = h.prev hd
        · rw [addTail_next_eval, if_pos hpph]
          exact Finset.mem_insert_self n S
        · rw [addTail_next_eval, if_neg hpph, if_neg hp_ne_n]
          exact Finset.mem_insert_of_mem hnp
      · rw [addTail_prev_eval, if_neg hp_ne_n, if_neg hphd]
        exact Finset.mem_insert_of_mem hpp
      · by_cases hpph : p = h.prev hd
        · rw [addTail_next_eval, if_pos hpph, addTail_prev_eval, if_pos rfl]
          exact hpph.symm
        · have hnp_ne_hd : h.next p ≠ hd := by
            intro he
            have h1 := hpW.2.2.1
            rw [he] at h1
            exact hpph h1.symm
          rw [addTail_next_eval, if_neg hpph, if_neg hp_ne_n,
            addTail_prev_eval, if_neg hnp_ne_n, if_neg hnp_ne_hd]
          exact hpW.2.2.1
      · rw [addTail_prev_eval, if_neg hp_ne_n, if_neg hphd,
          addTail_next_eval, if_neg hpp_ne_ph, if_neg hpp_ne_n]
        exact hpW.2.2.2

/-- CAM_OS_LIST_DEL_INIT of an active node preserves well-formedness (the
entry itself stays active as a re-initialised singleton ring). -/
theorem WF_delInit (h : Heap) (S : Finset Nat) (hWF : WF h S) (e : Nat)
    (he : e ∈ S) :
    WF (CAM_OS_LIST_DEL_INIT e h) S := by
  have heW := hWF e he
  intro p hp
  have hpW := hWF p hp
  by_cases hp_ne_e : p = e
  · subst hp_ne_e
    refine ⟨?_, ?_, ?_, ?_⟩
    · rw [delInit_next_eval, if_pos rfl]
      exact hp
    · rw [delInit_prev_eval, if_pos rfl]
      exact hp
    · rw [delInit_next_eval, if_pos rfl, delInit_prev_eval, if_pos rfl]
    · rw [delInit_prev_eval, if_pos rfl, delInit_next_eval, if_pos rfl]
  · by_cases hppe : p = h.prev e
    · have hne_ne_e : h.next e ≠ e := by
        intro he'
        have h1 := heW.2.2.1
        rw [he'] at h1
        exact hp_ne_e (hppe.trans h1)
      refine ⟨?_, ?_, ?_, ?_⟩
      · rw [delInit_next_eval, if_neg hp_ne_e, if_pos hppe]
        exact heW.1
      · by_cases hpne : p = h.next e
        · rw [delInit_prev_eval, if_neg hp_ne_e, if_pos hpne]
          exact heW.2.1
        · rw [delInit_prev_eval, if_neg hp_ne_e, if_neg hpne]
          exact hpW.2.1
      · rw [delInit_next_eval, if_neg hp_ne_e, if_pos hppe,
          delInit_prev_eval, if_neg hne_ne_e, if_pos rfl]
        exact hppe.symm
      · by_cases hpne : p = h.next e
        · rw [delInit_prev_eval, if_neg hp_ne_e, if_pos hpne, ← hppe,
            delInit_next_eval, if_neg hp_ne_e, if_pos hppe]
          exact hpne.symm
        · have hq := hpW.2.2.2
          have hq_ne_e : h.prev p ≠ e := by
            intro he'
            rw [he'] at hq
            exact hpne hq.symm
          have hq_ne_pe : h.prev p ≠ h.prev e := by
            intro he'
            rw [he', heW.2.2.2] at hq
            exact hp_ne_e hq.symm
          rw [delInit_prev_eval, if_neg hp_ne_e, if_neg hpne,
            delInit_next_eval, if_neg hq_ne_e, if_neg hq_ne_pe]
          exact hpW.2.2.2
    · have hnp_ne_e : h.next p ≠ e := by
        intro he'
        have h1 := hpW.2.2.1
        rw [he'] at h1
        exact hppe h1.symm
      refine ⟨?_, ?_, ?_, ?_⟩
      · rw [delInit_next_eval, if_neg hp_ne_e, if_neg hppe]
        exact hpW.1
      · by_cases hpne : p = h.next e
        · rw [delInit_prev_eval, if_neg hp_ne_e, if_pos hpne]
          exact heW.2.1
        · rw [delInit_prev_eval, if_neg hp_ne_e, if_neg hpne]
          exact hpW.2.1
      · have hnp_ne_ne : h.next p ≠ h.next e := by
          intro he'
          have h1 := hpW.2.2.1
          rw [he', heW.2.2.1] at h1
          exact hp_ne_e h1.symm
        rw [delInit_next_eval, if_neg hp_ne_e, if_neg hppe,
          delInit_prev_eval, if_neg hnp_ne_e, if_neg hnp_ne_ne]
        exact hpW.2.2.1
      · by_cases hpne : p = h.next e
        · have hpe_ne_e : h.prev e ≠ e := by
            intro he'
            have h1 := heW.2.2.2
            rw [he'] at h1
            exact hp_ne_e (hpne.trans h1)
          rw [delInit_prev_eval, if_neg hp_ne_e, if_pos hpne,
            delInit_next_eval, if_neg hpe_ne_e, if_pos rfl]
          exact hpne.symm
        · have hpp_ne_e : h.prev p ≠ e := by
            intro he'
            have h1 := hpW.2.2.2
            rw [he'] at h1
            exact hpne h1.symm
          have hpp_ne_pe : h.prev p ≠ h.prev e := by
            intro he'
            have h1 := hpW.2.2.2
            rw [he', heW.2.2.2] at h1
            exact hp_ne_e h1.symm
          rw [delInit_prev_eval, if_neg hp_ne_e, if_neg hpne,
            delInit_next_eval, if_neg hpp_ne_e, if_neg hpp_ne_pe]
          exact hpW.2.2.2

/-- One list manipulation: CAM_OS_LIST_ADD, CAM_OS_LIST_ADD_TAIL or
CAM_OS_LIST_DEL_INIT. -/
inductive ListOp where
  | add (pNew head : Nat)
  | addTail (pNew head : Nat)
  | delInit (entry : Nat)

/-- Apply one operation; the set tracks the nodes currently on some list. -/
def applyOp (st : Heap × Finset Nat) : ListOp → Heap × Finset Nat
  | .add n hd => (CAM_OS_LIST_ADD n hd st.1, insert n st.2)
  | .addTail n hd => (CAM_OS_LIST_ADD_TAIL n hd st.1, insert n st.2)
  | .delInit e => (CAM_OS_LIST_DEL_INIT e st.1, st.2)

/-- Side condition of one operation: an insertion takes a node not
currently on a list and a head that is; a deletion takes a node that is. -/
def opOK (st : Heap × Finset Nat) : ListOp → Bool
  | .add n hd => !decide (n ∈ st.2) && decide (hd ∈ st.2)
  | .addTail n hd => !decide (n ∈ st.2) && decide (hd ∈ st.2)
  | .delInit e => decide (e ∈ st.2)

/-- Every operation of the sequence is applied in a state where its side
condition holds. -/
def seqOK (ops : List ListOp) (st : Heap × Finset Nat) : Bool :=
  match ops with
  | [] => true
  | op :: rest => opOK st op && seqOK rest (applyOp st op)

/-- Run a sequence of operations. -/
def execOps (ops : List ListOp) (st : Heap × Finset Nat) : Heap × Finset Nat :=
  match ops with
  | [] => st
  | op :: rest => execOps rest (applyOp st op)

/-- p is reachable from a by following pNext. -/
def reach (h : Heap) (a p : Nat) : Prop :=
  ∃ k, (fun q => h.next q)^[k] a = p

/-- A valid sequence of list operations preserves well-formedness. -/
theorem WF_exec (ops : List ListOp) (st : Heap × Finset Nat)
    (hWF : WF st.1 st.2) (hseq : seqOK ops st = true) :
    WF (execOps ops st).1 (execOps ops st).2 := by
  induction ops generalizing st with
  | nil => exact hWF
  | cons op rest ih =>
    rw [seqOK, Bool.and_eq_true] at hseq
    refine ih (applyOp st op) ?_ hseq.2
    have h1 := hseq.1
    cases op with
    | add n hd =>
      rw [opOK, Bool.and_eq_true, Bool.not_eq_true', decide_eq_false_iff_not,
        decide_eq_true_eq] at h1
      exact WF_add st.1 st.2 hWF n hd h1.1 h1.2
    | addTail n hd =>
      rw [opOK, Bool.and_eq_true, Bool.not_eq_true', decide_eq_false_iff_not,
        decide_eq_true_eq] at h1
      exact WF_addTail st.1 st.2 hWF n hd h1.1 h1.2
    | delInit e =>
      rw [opOK, decide_eq_true_eq] at h1
      exact WF_delInit st.1 st.2 hWF e h1

/-- On a well-formed heap, reachability stays inside the active set. -/
theorem reach_mem (h : Heap) (S : Finset Nat) (hWF : WF h S) (a p : Nat)
    (ha : a ∈ S) (hr : reach h a p) : p ∈ S := by
  obtain ⟨k, hk⟩ := hr
  subst hk
  induction k with
  | zero => exact ha
  | succ k ih =>
    rw [Function.iterate_succ_apply']
    exact (hWF _ ih).1

/-- Claim C6: starting from self-initialised heads, any valid sequence of
CAM_OS_LIST_ADD, CAM_OS_LIST_ADD_TAIL and CAM_OS_LIST_DEL_INIT operations
(each insertion of a node not currently on a list, each deletion of a node
that is) keeps the circular invariant p->pNext->pPrev == p and
p->pPrev->pNext == p for every node reachable from an active node, and
CAM_OS_LIST_EMPTY(head) holds exactly when head is the only node of its
ring. -/
theorem cam_os_list_invariant (h0 : Heap) (S0 : Finset Nat) (ops : List ListOp)
    (hinit : ∀ s ∈ S0, h0.next s = s ∧ h0.prev s = s)
    (hseq : seqOK ops (h0, S0) = true) :
    (∀ hd ∈ (execOps ops (h0, S0)).2, ∀ p,
      reach (execOps ops (h0, S0)).1 hd p →
      ((execOps ops (h0, S0)).1.prev ((execOps ops (h0, S0)).1.next p) = p ∧
       (execOps ops (h0, S0)).1.next ((execOps ops (h0, S0)).1.prev p) = p)) ∧
    (∀ hd ∈ (execOps ops (h0, S0)).2,
      (CAM_OS_LIST_EMPTY hd (execOps ops (h0, S0)).1 = true ↔
       ∀ p, reach (execOps ops (h0, S0)).1 hd p → p = hd)) := by
  have hWF0 : WF h0 S0 := by
    intro p hp
    obtain ⟨h1, h2⟩ := hinit p hp
    exact ⟨by rw [h1]; exact hp, by rw [h2]; exact hp, by rw [h1, h2],
      by rw [h2, h1]⟩
  have hWF := WF_exec ops (h0, S0) hWF0 hseq
  constructor
  · intro hd hhd p hr
    have hpS := reach_mem _ _ hWF hd p hhd hr
    exact ⟨(hWF p hpS).2.2.1, (hWF p hpS).2.2.2⟩
  · intro hd hhd
    rw [CAM_OS_LIST_EMPTY, decide_eq_true_eq]
    constructor
    · intro hery p hr
      obtain ⟨k, hk⟩ := hr
      rw [Function.iterate_fixed hery k] at hk
      exact hk.symm
    · intro hall
      exact hall _ ⟨1, rfl⟩

/-- Witness for claim C6: one head 0, insert node 1 at the head, node 2 at
the tail, then delete node 1 again. -/
theorem cam_os_list_invariant_witness :
    (∀ hd ∈ (execOps [ListOp.add 1 0, ListOp.addTail 2 0, ListOp.delInit 1]
        (⟨fun x => x, fun x => x⟩, {0})).2, ∀ p,
      reach (execOps [ListOp.add 1 0, ListOp.addTail 2 0, ListOp.delInit 1]
        (⟨fun x => x, fun x => x⟩, {0})).1 hd p →
      ((execOps [ListOp.add 1 0, ListOp.addTail 2 0, ListOp.delInit 1]
        (⟨fun x => x, fun x => x⟩, {0})).1.prev
        ((execOps [ListOp.add 1 0, ListOp.addTail 2 0, ListOp.delInit 1]
          (⟨fun x => x, fun x => x⟩, {0})).1.next p) = p ∧
       (execOps [ListOp.add 1 0, ListOp.addTail 2 0, ListOp.delInit 1]
        (⟨fun x => x, fun x => x⟩, {0})).1.next
        ((execOps [ListOp.add 1 0, ListOp.addTail 2 0, ListOp.delInit 1]
          (⟨fun x => x, fun x => x⟩, {0})).1.prev p) = p)) ∧
    (∀ hd ∈ (execOps [ListOp.add 1 0, ListOp.addTail 2 0, ListOp.delInit 1]
        (⟨fun x => x, fun x => x⟩, {0})).2,
      (CAM_OS_LIST_EMPTY hd (execOps [ListOp.add 1 0, ListOp.addTail 2 0,
          ListOp.delInit 1] (⟨fun x => x, fun x => x⟩, {0})).1 = true ↔
       ∀ p, reach (execOps [ListOp.add 1 0, ListOp.addTail 2 0,
          ListOp.delInit 1] (⟨fun x => x, fun x => x⟩, {0})).1 hd p → p = hd)) :=
  cam_os_list_invariant ⟨fun x => x, fun x => x⟩ {0}
    [ListOp.add 1 0, ListOp.addTail 2 0, ListOp.delInit 1]
    (by decide) (by decide)

/-- Claim C7: CAM_OS_LIST_ADD inserts pNew right after head and
CAM_OS_LIST_ADD_TAIL right before it, touching no other node.  The
hypotheses say pNew is not on the list being extended (it differs from
head and from head's neighbours), which is the well-formed use of the C
routines. -/
theorem cam_os_list_add_effect (h : Heap) (pNew head : Nat)
    (h1 : pNew ≠ head) (h2 : pNew ≠ h.next head) (h3 : pNew ≠ h.prev head) :
    ((CAM_OS_LIST_ADD pNew head h).next head = pNew ∧
     (CAM_OS_LIST_ADD pNew head h).prev pNew = head ∧
     (CAM_OS_LIST_ADD pNew head h).next pNew = h.next head ∧
     (CAM_OS_LIST_ADD pNew head h).prev (h.next head) = pNew ∧
     (∀ p, p ≠ head → p ≠ pNew → p ≠ h.next head →
       (CAM_OS_LIST_ADD pNew head h).next p = h.next p ∧
       (CAM_OS_LIST_ADD pNew head h).prev p = h.prev p)) ∧
    ((CAM_OS_LIST_ADD_TAIL pNew head h).prev head = pNew ∧
     (CAM_OS_LIST_ADD_TAIL pNew head h).next pNew = head ∧
     (CAM_OS_LIST_ADD_TAIL pNew head h).prev pNew = h.prev head ∧
     (CAM_OS_LIST_ADD_TAIL pNew head h).next (h.prev head) = pNew ∧
     (∀ p, p ≠ head → p ≠ pNew → p ≠ h.prev head →
       (CAM_OS_LIST_ADD_TAIL pNew head h).next p = h.next p ∧
       (CAM_OS_LIST_ADD_TAIL pNew head h).prev p = h.prev p)) := by
  refine ⟨⟨?_, ?_, ?_, ?_, ?_⟩, ⟨?_, ?_, ?_, ?_, ?_⟩⟩
  · rw [add_next_eval, if_pos rfl]
  · rw [add_prev_eval, if_pos rfl]
  · rw [add_next_eval, if_neg h1, if_pos rfl]
  · rw [add_prev_eval, if_neg (Ne.symm h2), if_pos rfl]
  · intro p hp1 hp2 hp3
    constructor
    · rw [add_next_eval, if_neg hp1, if_neg hp2]
    · rw [add_prev_eval, if_neg hp2, if_neg hp3]
  · rw [addTail_prev_eval, if_neg (Ne.symm h1), if_pos rfl]
  · rw [addTail_next_eval, if_neg h3, if_pos rfl]
  · rw [addTail_prev_eval, if_pos rfl]
  · rw [addTail_next_eval, if_pos rfl]
  · intro p hp1 hp2 hp3
    constructor
    · rw [addTail_next_eval, if_neg hp3, if_neg hp2]
    · rw [addTail_prev_eval, if_neg hp2, if_neg hp1]

/-- Witness for claim C7: heap with next = 5 and prev = 7 everywhere,
head 0, new node 3. -/
theorem cam_os_list_add_effect_witness :
    ((CAM_OS_LIST_ADD 3 0 ⟨fun _ => 5, fun _ => 7⟩).next 0 = 3 ∧
     (CAM_OS_LIST_ADD 3 0 ⟨fun _ => 5, fun _ => 7⟩).prev 3 = 0 ∧
     (CAM_OS_LIST_ADD 3 0 ⟨fun _ => 5, fun _ => 7⟩).next 3 =
       (Heap.mk (fun _ => 5) (fun _ => 7)).next 0 ∧
     (CAM_OS_LIST_ADD 3 0 ⟨fun _ => 5, fun _ => 7⟩).prev
       ((Heap.mk (fun _ => 5) (fun _ => 7)).next 0) = 3 ∧
     (∀ p, p ≠ 0 → p ≠ 3 → p ≠ (Heap.mk (fun _ => 5) (fun _ => 7)).next 0 →
       (CAM_OS_LIST_ADD 3 0 ⟨fun _ => 5, fun _ => 7⟩).next p =
         (Heap.mk (fun _ => 5) (fun _ => 7)).next p ∧
       (CAM_OS_LIST_ADD 3 0 ⟨fun _ => 5, fun _ => 7⟩).prev p =
         (Heap.mk (fun _ => 5) (fun _ => 7)).prev p)) ∧
    ((CAM_OS_LIST_ADD_TAIL 3 0 ⟨fun _ => 5, fun _ => 7⟩).prev 0 = 3 ∧
     (CAM_OS_LIST_ADD_TAIL 3 0 ⟨fun _ => 5, fun _ => 7⟩).next 3 = 0 ∧
     (CAM_OS_LIST_ADD_TAIL 3 0 ⟨fun _ => 5, fun _ => 7⟩).prev 3 =
       (Heap.mk (fun _ => 5) (fun _ => 7)).prev 0 ∧
     (CAM_OS_LIST_ADD_TAIL 3 0 ⟨fun _ => 5, fun _ => 7⟩).next
       ((Heap.mk (fun _ => 5) (fun _ => 7)).prev 0) = 3 ∧
     (∀ p, p ≠ 0 → p ≠ 3 → p ≠ (Heap.mk (fun _ => 5) (fun _ => 7)).prev 0 →
       (CAM_OS_LIST_ADD_TAIL 3 0 ⟨fun _ => 5, fun _ => 7⟩).next p =
         (Heap.mk (fun _ => 5) (fun _ => 7)).next p ∧
       (CAM_OS_LIST_ADD_TAIL 3 0 ⟨fun _ => 5, fun _ => 7⟩).prev p =
         (Heap.mk (fun _ => 5) (fun _ => 7)).prev p)) :=
  cam_os_list_add_effect ⟨fun _ => 5, fun _ => 7⟩ 3 0 (by decide) (by decide)
    (by decide)

/-- Claim C9: CAM_OS_LIST_DEL links the entry's former neighbours to each
other and poisons the entry (pNext = CAM_OS_LIST_POISON1 = 0x00100100,
pPrev = CAM_OS_LIST_POISON2 = 0x00200200), so CAM_OS_LIST_EMPTY is false
on it, while CAM_OS_LIST_DEL_INIT re-initialises the entry to a valid
empty list.  The hypotheses say the entry sits on a list with neighbours
other than itself and that its address is not the poison constant. -/
theorem cam_os_list_del_poison (h : Heap) (e : Nat)
    (h1 : h.next e ≠ e) (h2 : h.prev e ≠ e) (h3 : e ≠ 0x00100100) :
    (CAM_OS_LIST_DEL e h).next (h.prev e) = h.next e ∧
    (CAM_OS_LIST_DEL e h).prev (h.next e) = h.prev e ∧
    (CAM_OS_LIST_DEL e h).next e = 0x00100100 ∧
    (CAM_OS_LIST_DEL e h).prev e = 0x00200200 ∧
    CAM_OS_LIST_EMPTY e (CAM_OS_LIST_DEL e h) = false ∧
    (CAM_OS_LIST_DEL_INIT e h).next e = e ∧
    (CAM_OS_LIST_DEL_INIT e h).prev e = e ∧
    CAM_OS_LIST_EMPTY e (CAM_OS_LIST_DEL_INIT e h) = true := by
  refine ⟨?_, ?_, ?_, ?_, ?_, ?_, ?_, ?_⟩
  · rw [del_next_eval, if_neg h2, if_pos rfl]
  · rw [del_prev_eval, if_neg h1, if_pos rfl]
  · rw [del_next_eval, if_pos rfl]
  · rw [del_prev_eval, if_pos rfl]
  · rw [CAM_OS_LIST_EMPTY, del_next_eval, if_pos rfl]
    simp [Ne.symm h3]
  · rw [delInit_next_eval, if_pos rfl]
  · rw [delInit_prev_eval, if_pos rfl]
  · rw [CAM_OS_LIST_EMPTY, delInit_next_eval, if_pos rfl]
    simp

/-- Witness for claim C9: heap with next = 5 and prev = 7 everywhere,
entry 0. -/
theorem cam_os_list_del_poison_witness :
    (CAM_OS_LIST_DEL 0 ⟨fun _ => 5, fun _ => 7⟩).next
      ((Heap.mk (fun _ => 5) (fun _ => 7)).prev 0) =
      (Heap.mk (fun _ => 5) (fun _ => 7)).next 0 ∧
    (CAM_OS_LIST_DEL 0 ⟨fun _ => 5, fun _ => 7⟩).prev
      ((Heap.mk (fun _ => 5) (fun _ => 7)).next 0) =
      (Heap.mk (fun _ => 5) (fun _ => 7)).prev 0 ∧
    (CAM_OS_LIST_DEL 0 ⟨fun _ => 5, fun _ => 7⟩).next 0 = 0x00100100 ∧
    (CAM_OS_LIST_DEL 0 ⟨fun _ => 5, fun _ => 7⟩).prev 0 = 0x00200200 ∧
    CAM_OS_LIST_EMPTY 0 (CAM_OS_LIST_DEL 0 ⟨fun _ => 5, fun _ => 7⟩) = false ∧
    (CAM_OS_LIST_DEL_INIT 0 ⟨fun _ => 5, fun _ => 7⟩).next 0 = 0 ∧
    (CAM_OS_LIST_DEL_INIT 0 ⟨fun _ => 5, fun _ => 7⟩).prev 0 = 0 ∧
    CAM_OS_LIST_EMPTY 0 (CAM_OS_LIST_DEL_INIT 0 ⟨fun _ => 5, fun _ => 7⟩) = true :=
  cam_os_list_del_poison ⟨fun _ => 5, fun _ => 7⟩ 0 (by decide) (by decide)
    (by decide)

/-! ### Bitmap operations (cam_os_util_bitmap.h lines 27-115)

A bitmap is an array of unsigned longs; it is embedded as a List Nat of
W-bit words, W = CAM_OS_BITS_PER_LONG. -/

/-- CAM_OS_BIT_MASK(nr) = 1UL << (nr % CAM_OS_BITS_PER_LONG). -/
def CAM_OS_BIT_MASK (W nr : Nat) : Nat := 1 <<< (nr % W)

/-- CAM_OS_BIT_WORD(nr) = nr / CAM_OS_BITS_PER_LONG. -/
def CAM_OS_BIT_WORD (W nr : Nat) : Nat := nr / W

/-- CAM_OS_TEST_BIT: 1UL & (addr[CAM_OS_BIT_WORD(nr)] >> (nr & (W-1))). -/
def CAM_OS_TEST_BIT (W nr : Nat) (addr : List Nat) : Nat :=
  1 &&& ((addr.getD (CAM_OS_BIT_WORD W nr) 0) >>> (nr &&& (W - 1)))

/-- CAM_OS_TEST_AND_SET_BIT: the returned flag is (old & mask) != 0 and the
word is replaced by old | mask. -/
def CAM_OS_TEST_AND_SET_BIT (W nr : Nat) (addr : List Nat) : Bool × List Nat :=
  (decide ((addr.getD (CAM_OS_BIT_WORD W nr) 0) &&& CAM_OS_BIT_MASK W nr ≠ 0),
   addr.set (CAM_OS_BIT_WORD W nr)
     ((addr.getD (CAM_OS_BIT_WORD W nr) 0) ||| CAM_OS_BIT_MASK W nr))

/-- CAM_OS_TEST_AND_CLEAR_BIT: the returned flag is (old & mask) != 0 and
the word is replaced by old & ~mask; the complement of the W-bit unsigned
long mask is (2^W - 1) XOR mask. -/
def CAM_OS_TEST_AND_CLEAR_BIT (W nr : Nat) (addr : List Nat) : Bool × List Nat :=
  (decide ((addr.getD (CAM_OS_BIT_WORD W nr) 0) &&& CAM_OS_BIT_MASK W nr ≠ 0),
   addr.set (CAM_OS_BIT_WORD W nr)
     ((addr.getD (CAM_OS_BIT_WORD W nr) 0) &&&
       ((2 ^ W - 1) ^^^ CAM_OS_BIT_MASK W nr)))

/-- Reading a just-written list cell. -/
theorem getD_set_self (l : List Nat) (i v d : Nat) (h : i < l.length) :
    (l.set i v).getD i d = v := by
  simp [List.getElem?_set_self h]

/-- Reading another list cell after a write. -/
theorem getD_set_ne (l : List Nat) (i j v d : Nat) (h : i ≠ j) :
    (l.set i v).getD j d = l.getD j d := by
  simp [List.getElem?_set_ne h]

/-- For the word widths 32 and 64, nr & (W-1) is nr % W. -/
theorem and_word_mask (W m : Nat) (hW : W = 32 ∨ W = 64) :
    m &&& (W - 1) = m % W := by
  rcases hW with rfl | rfl
  · have h5 : (32 - 1 : Nat) = 2 ^ 5 - 1 := by norm_num
    rw [h5, Nat.and_pow_two_sub_one_eq_mod]
  · have h6 : (64 - 1 : Nat) = 2 ^ 6 - 1 := by norm_num
    rw [h6, Nat.and_pow_two_sub_one_eq_mod]

/-- The bit mask is the power of two at the in-word position. -/
theorem bit_mask_eq (W nr : Nat) : CAM_OS_BIT_MASK W nr = 2 ^ (nr % W) := by
  rw [CAM_OS_BIT_MASK, Nat.shiftLeft_eq, Nat.one_mul]

/-- CAM_OS_TEST_BIT reads exactly the selected bit of the selected word. -/
theorem test_bit_char (W m : Nat) (addr : List Nat) (hW : W = 32 ∨ W = 64) :
    CAM_OS_TEST_BIT W m addr =
      if (addr.getD (m / W) 0).testBit (m % W) then 1 else 0 := by
  rw [CAM_OS_TEST_BIT, CAM_OS_BIT_WORD, and_word_mask W m hW,
    Nat.one_and_eq_mod_two, Nat.shiftRight_eq_div_pow]
  cases hb : (addr.getD (m / W) 0).testBit (m % W) with
  | false =>
    rw [Nat.testBit_to_div_mod] at hb
    simp only [decide_eq_false_iff_not] at hb
    rw [if_neg Bool.false_ne_true]
    omega
  | true =>
    rw [Nat.testBit_to_div_mod] at hb
    simp only [decide_eq_true_eq] at hb
    rw [if_pos rfl]
    exact hb

/-- Claim C8: for an in-range bit index, CAM_OS_TEST_AND_SET_BIT returns
nonzero exactly when the bit was set and leaves it set,
CAM_OS_TEST_AND_CLEAR_BIT returns nonzero exactly when the bit was set and
leaves it clear, and both leave every other bit unchanged as observed by
CAM_OS_TEST_BIT. -/
theorem cam_os_test_and_set_clear_bit (W nr : Nat) (addr : List Nat)
    (hW : W = 32 ∨ W = 64) (hnr : nr < W * addr.length) :
    ((CAM_OS_TEST_AND_SET_BIT W nr addr).1 = true ↔
      CAM_OS_TEST_BIT W nr addr = 1) ∧
    CAM_OS_TEST_BIT W nr (CAM_OS_TEST_AND_SET_BIT W nr addr).2 = 1 ∧
    (∀ m, m ≠ nr → CAM_OS_TEST_BIT W m (CAM_OS_TEST_AND_SET_BIT W nr addr).2 =
      CAM_OS_TEST_BIT W m addr) ∧
    ((CAM_OS_TEST_AND_CLEAR_BIT W nr addr).1 = true ↔
      CAM_OS_TEST_BIT W nr addr = 1) ∧
    CAM_OS_TEST_BIT W nr (CAM_OS_TEST_AND_CLEAR_BIT W nr addr).2 = 0 ∧
    (∀ m, m ≠ nr → CAM_OS_TEST_BIT W m (CAM_OS_TEST_AND_CLEAR_BIT W nr addr).2 =
      CAM_OS_TEST_BIT W m addr) := by
  have hW0 : 0 < W := by rcases hW with rfl | rfl <;> norm_num
  have hlen : nr / W < addr.length := by
    rw [Nat.div_lt_iff_lt_mul hW0, Nat.mul_comm]
    exact hnr
  have hjW : nr % W < W := Nat.mod_lt _ hW0
  simp only [CAM_OS_TEST_AND_SET_BIT, CAM_OS_TEST_AND_CLEAR_BIT, CAM_OS_BIT_WORD]
  set old := addr.getD (nr / W) 0 with hold
  have hflag : (old &&& CAM_OS_BIT_MASK W nr ≠ 0) ↔ old.testBit (nr % W) = true := by
    rw [bit_mask_eq, Ne, and_two_pow_eq_zero_iff, Bool.not_eq_false]
  have htb : CAM_OS_TEST_BIT W nr addr = 1 ↔ old.testBit (nr % W) = true := by
    rw [test_bit_char W nr addr hW, ← hold]
    cases h : old.testBit (nr % W) <;> simp [h]
  refine ⟨?_, ?_, ?_, ?_, ?_, ?_⟩
  · rw [htb, decide_eq_true_eq, hflag]
  · rw [test_bit_char W nr _ hW, getD_set_self _ _ _ _ hlen, bit_mask_eq]
    have hset : (old ||| 2 ^ (nr % W)).testBit (nr % W) = true := by
      rw [Nat.testBit_or, Nat.testBit_two_pow_self, Bool.or_true]
    rw [hset, if_pos rfl]
  · intro m hm
    rw [test_bit_char W m _ hW, test_bit_char W m addr hW]
    by_cases hword : nr / W = m / W
    · rw [← hword, getD_set_self _ _ _ _ hlen, ← hold]
      have hmod : m % W ≠ nr % W := by
        intro he
        apply hm
        calc m = W * (m / W) + m % W := (Nat.div_add_mod m W).symm
          _ = W * (nr / W) + nr % W := by rw [hword, he]
          _ = nr := Nat.div_add_mod nr W
      rw [bit_mask_eq]
      have hbits : (old ||| 2 ^ (nr % W)).testBit (m % W) = old.testBit (m % W) := by
        rw [Nat.testBit_or, Nat.testBit_two_pow_of_ne (Ne.symm hmod), Bool.or_false]
      rw [hbits]
    · rw [getD_set_ne _ _ _ _ _ hword]
  · rw [htb, decide_eq_true_eq, hflag]
  · rw [test_bit_char W nr _ hW, getD_set_self _ _ _ _ hlen, bit_mask_eq]
    have hclr : (old &&& ((2 ^ W - 1) ^^^ 2 ^ (nr % W))).testBit (nr % W) = false := by
      rw [Nat.testBit_and, Nat.testBit_xor, Nat.testBit_two_pow_sub_one,
        Nat.testBit_two_pow_self]
      simp [hjW]
    rw [hclr, if_neg Bool.false_ne_true]
  · intro m hm
    rw [test_bit_char W m _ hW, test_bit_char W m addr hW]
    by_cases hword : nr / W = m / W
    · rw [← hword, getD_set_self _ _ _ _ hlen, ← hold]
      have hmod : m % W ≠ nr % W := by
        intro he
        apply hm
        calc m = W * (m / W) + m % W := (Nat.div_add_mod m W).symm
          _ = W * (nr / W) + nr % W := by rw [hword, he]
          _ = nr := Nat.div_add_mod nr W
      rw [bit_mask_eq]
      have hbits : (old &&& ((2 ^ W - 1) ^^^ 2 ^ (nr % W))).testBit (m % W) =
          old.testBit (m % W) := by
        rw [Nat.testBit_and, Nat.testBit_xor, Nat.testBit_two_pow_sub_one,
          Nat.testBit_two_pow_of_ne (Ne.symm hmod)]
        simp [Nat.mod_lt m hW0]
      rw [hbits]
    · rw [getD_set_ne _ _ _ _ _ hword]

/-- Witness for claim C8: width 32, bitmap [5, 9], bit 35 (word 1, in-word
bit 3, which is set in 9 = 0b1001). -/
theorem cam_os_test_and_set_clear_bit_witness :
    ((CAM_OS_TEST_AND_SET_BIT 32 35 [5, 9]).1 = true ↔
      CAM_OS_TEST_BIT 32 35 [5, 9] = 1) ∧
    CAM_OS_TEST_BIT 32 35 (CAM_OS_TEST_AND_SET_BIT 32 35 [5, 9]).2 = 1 ∧
    (∀ m, m ≠ 35 → CAM_OS_TEST_BIT 32 m (CAM_OS_TEST_AND_SET_BIT 32 35 [5, 9]).2 =
      CAM_OS_TEST_BIT 32 m [5, 9]) ∧
    ((CAM_OS_TEST_AND_CLEAR_BIT 32 35 [5, 9]).1 = true ↔
      CAM_OS_TEST_BIT 32 35 [5, 9] = 1) ∧
    CAM_OS_TEST_BIT 32 35 (CAM_OS_TEST_AND_CLEAR_BIT 32 35 [5, 9]).2 = 0 ∧
    (∀ m, m ≠ 35 → CAM_OS_TEST_BIT 32 m (CAM_OS_TEST_AND_CLEAR_BIT 32 35 [5, 9]).2 =
      CAM_OS_TEST_BIT 32 m [5, 9]) :=
  cam_os_test_and_set_clear_bit 32 35 [5, 9] (Or.inl rfl) (by norm_num)

/-! ### Intrusive hlist (cam_os_util_list.h lines 238-292)

A CamOsHListNode_t's ppPrev field points either at a head's pFirst field or
at another node's pNext field; those two kinds of locations are the HLoc
type, and NULL pointers are the none cases. -/

/-- A location a ppPrev pointer can designate. -/
inductive HLoc where
  | headFirst (head : Nat)
  | nodeNext (node : Nat)
deriving DecidableEq

/-- The pFirst fields of all heads and the pNext / ppPrev fields of all
nodes. -/
structure HHeap where
  first : Nat → Option Nat
  next : Nat → Option Nat
  pprev : Nat → Option HLoc

/-- The store *pp = v of _CAM_OS_HLIST_DEL. -/
def writeLoc (s : HHeap) (l : HLoc) (v : Option Nat) : HHeap :=
  match l with
  | .headFirst hd => { s with first := fun x => if x = hd then v else s.first x }
  | .nodeNext m => { s with next := fun x => if x = m then v else s.next x }

/-- CAM_OS_HLIST_UNHASHED(h): !h->ppPrev. -/
def CAM_OS_HLIST_UNHASHED (s : HHeap) (n : Nat) : Bool :=
  decide (s.pprev n = none)

/-- CAM_OS_INIT_HLIST_NODE(h): h->pNext = NULL; h->ppPrev = NULL. -/
def CAM_OS_INIT_HLIST_NODE (s : HHeap) (n : Nat) : HHeap :=
  { s with next := fun x => if x = n then none else s.next x,
           pprev := fun x => if x = n then none else s.pprev x }

/-- _CAM_OS_HLIST_DEL(n): *n->ppPrev = n->pNext; if (n->pNext)
n->pNext->ppPrev = n->ppPrev.  The none branch is never taken by
CAM_OS_HLIST_DEL_INIT, whose CAM_OS_HLIST_UNHASHED guard keeps the C code
from dereferencing a NULL ppPrev. -/
def _CAM_OS_HLIST_DEL (s : HHeap) (n : Nat) : HHeap :=
  match s.pprev n with
  | none => s
  | some pp =>
    match s.next n with
    | none => writeLoc s pp (s.next n)
    | some m =>
      { writeLoc s pp (s.next n) with
        pprev := fun x => if x = m then some pp else (writeLoc s pp (s.next n)).pprev x }

/-- CAM_OS_HLIST_DEL_INIT(n): if the node is hashed, unlink it and
re-initialise it. -/
def CAM_OS_HLIST_DEL_INIT (s : HHeap) (n : Nat) : HHeap :=
  if CAM_OS_HLIST_UNHASHED s n then s
  else CAM_OS_INIT_HLIST_NODE (_CAM_OS_HLIST_DEL s n) n

/-- Claim C10: CAM_OS_HLIST_DEL_INIT on an unhashed node (ppPrev == NULL)
changes nothing at all, and the operation is idempotent on every node and
state. -/
theorem cam_os_hlist_del_init_idem (s : HHeap) (n : Nat) :
    (s.pprev n = none → CAM_OS_HLIST_DEL_INIT s n = s) ∧
    CAM_OS_HLIST_DEL_INIT (CAM_OS_HLIST_DEL_INIT s n) n =
      CAM_OS_HLIST_DEL_INIT s n := by
  have hpart1 : ∀ t : HHeap, t.pprev n = none → CAM_OS_HLIST_DEL_INIT t n = t := by
    intro t ht
    rw [CAM_OS_HLIST_DEL_INIT, if_pos (by rw [CAM_OS_HLIST_UNHASHED, ht]; rfl)]
  refine ⟨hpart1 s, ?_⟩
  by_cases h : s.pprev n = none
  · rw [hpart1 s h, hpart1 s h]
  · have hguard : ¬(CAM_OS_HLIST_UNHASHED s n = true) := by
      simp [CAM_OS_HLIST_UNHASHED, h]
    have hpost : (CAM_OS_HLIST_DEL_INIT s n).pprev n = none := by
      rw [CAM_OS_HLIST_DEL_INIT, if_neg hguard]
      simp [CAM_OS_INIT_HLIST_NODE]
    exact hpart1 _ hpost

/-- Witness for claim C10: the empty state (all pointers NULL), node 0. -/
theorem cam_os_hlist_del_init_idem_witness :
    CAM_OS_HLIST_DEL_INIT ⟨fun _ => none, fun _ => none, fun _ => none⟩ 0 =
      (⟨fun _ => none, fun _ => none, fun _ => none⟩ : HHeap) ∧
    CAM_OS_HLIST_DEL_INIT
      (CAM_OS_HLIST_DEL_INIT ⟨fun _ => none, fun _ => none, fun _ => none⟩ 0) 0 =
      CAM_OS_HLIST_DEL_INIT ⟨fun _ => none, fun _ => none, fun _ => none⟩ 0 :=
  ⟨(cam_os_hlist_del_init_idem ⟨fun _ => none, fun _ => none, fun _ => none⟩ 0).1 rfl,
   (cam_os_hlist_del_init_idem ⟨fun _ => none, fun _ => none, fun _ => none⟩ 0).2⟩
